import Mathlib

/-!
Verification of the NuGet package parsing core of timheuer/nupkg-viewer
(src/packageParser.ts, src/types.ts), as a shallow embedding.

Modelling conventions:
* JavaScript strings are modelled as Lean `String`s; the JS string
  operations `startsWith`, `endsWith`, `includes`, `toLowerCase`, `trim`,
  `split` are modelled over the code-point list `String.data`
  (`Char.toLower` stands in for JS `toLowerCase`).
* The comparator `a.path.localeCompare(b.path)` used by `buildFileTree`
  is modelled as lexicographic code-point comparison (`charLe`), and the
  in-place `Array.prototype.sort` (stable since ES2019) is modelled by
  `List.insertionSort`, which is stable.
* Node's `path.basename` / `path.extname` (posix behaviour on the
  slash-separated archive paths) are embedded as `basename` / `extname`.
* Raw entry bytes (Node `Buffer`s) are opaque to all the logic under
  verification; they are modelled as `String` (UTF-8 decoding of text
  entries is external to the repository's code).
-/

namespace Nupkg

/-! ## JS string primitives over code-point lists -/

/-- Prefix test on code-point lists (JS `String.prototype.startsWith`). -/
def isPre : List Char → List Char → Bool
  | [], _ => true
  | _ :: _, [] => false
  | a :: as, b :: bs => a == b && isPre as bs

/-- JS `s.startsWith(p)`. -/
def strStartsWith (s p : String) : Bool := isPre p.data s.data

/-- JS `s.endsWith(p)`. -/
def strEndsWith (s p : String) : Bool := isPre p.data.reverse s.data.reverse

/-- Substring search (JS `String.prototype.includes`). -/
def listContains : List Char → List Char → Bool
  | hay, pat =>
    match hay with
    | [] => pat.isEmpty
    | _ :: t => isPre pat hay || listContains t pat

/-- JS `s.includes(p)`. -/
def strContains (s p : String) : Bool := listContains s.data p.data

/-- JS `s.toLowerCase()` (modelled with `Char.toLower`). -/
def strLower (s : String) : String := ⟨s.data.map Char.toLower⟩

/-- JS `s.trim()` (modelled with `Char.isWhitespace`). -/
def jsTrim (s : String) : String :=
  ⟨((s.data.dropWhile Char.isWhitespace).reverse.dropWhile Char.isWhitespace).reverse⟩

/-- JS `s.split(sep)` for a single-character separator, over code points. -/
def splitOnCharAux (sep : Char) : List Char → List Char → List (List Char)
  | [], acc => [acc.reverse]
  | c :: rest, acc =>
    if c = sep then acc.reverse :: splitOnCharAux sep rest []
    else splitOnCharAux sep rest (c :: acc)

/-- JS `s.split(sep)`. -/
def splitOnChar (sep : Char) (s : String) : List String :=
  (splitOnCharAux sep s.data []).map (fun l => ⟨l⟩)

/-- `file.path.split('/').filter(p => p)`: the nonempty slash-separated
segments of a path (JS `filter(p => p)` keeps the truthy, i.e. nonempty,
strings). -/
def segs (p : String) : List String :=
  (splitOnChar '/' p).filter (fun s => s ≠ "")

/-- Lexicographic code-point comparison on strings (the model of
`a.localeCompare(b) <= 0`). -/
def charLe : List Char → List Char → Bool
  | [], _ => true
  | _ :: _, [] => false
  | a :: as, b :: bs => if a < b then true else if b < a then false else charLe as bs

/-! ## Node `path` functions (posix semantics on archive paths) -/

/-- Node `path.basename`: drops trailing slashes, then takes the final
slash-separated segment. -/
def basename (p : String) : String :=
  ⟨((p.data.reverse.dropWhile (fun c => c = '/')).takeWhile (fun c => c ≠ '/')).reverse⟩

/-- Node `path.extname`: the suffix of the basename from its last `.`,
empty when the basename has no dot, when the only dot is the leading
character (dotfiles), or for the special basename `".."`. -/
def extname (p : String) : String :=
  let b := (basename p).data
  if b.all (fun c => c ≠ '.') then ""
  else if b = ['.', '.'] then ""
  else
    let after := b.reverse.takeWhile (fun c => c ≠ '.')
    if after.length + 1 = b.length then "" else ⟨'.' :: after.reverse⟩

/-! ## Entry classification heuristics (packageParser.ts, `isIconFile` /
`isReadmeFile` / `isLicenseFile` / `isMcpServerFile`) -/

def iconExtensions : List String := [".png", ".jpg", ".jpeg", ".gif", ".bmp", ".ico"]

/-- `isIconFile`: extension (lower-cased) in the icon set and the
lower-cased path contains `"icon"`. -/
def isIconFile (fileName : String) : Bool :=
  iconExtensions.contains (strLower (extname fileName)) && strContains (strLower fileName) "icon"

def readmeNames : List String := ["readme.md", "readme.txt", "readme.rst", "readme"]

/-- `isReadmeFile`: lower-cased basename in the readme set or starting
with `"readme."`. -/
def isReadmeFile (fileName : String) : Bool :=
  let baseName := strLower (basename fileName)
  readmeNames.contains baseName || strStartsWith baseName "readme."

def licenseNames : List String :=
  ["license", "license.md", "license.txt", "license.rst",
   "licence", "licence.md", "licence.txt", "licence.rst",
   "copying", "copying.md", "copying.txt"]

/-- `isLicenseFile`: lower-cased basename in the license set or starting
with `"license."` or `"licence."`. -/
def isLicenseFile (fileName : String) : Bool :=
  let baseName := strLower (basename fileName)
  licenseNames.contains baseName || strStartsWith baseName "license." || strStartsWith baseName "licence."

/-- `isMcpServerFile`: lower-cased full path equals `".mcp/server.json"`. -/
def isMcpServerFile (fileName : String) : Bool :=
  strLower fileName == ".mcp/server.json"

/-- The classification precedence of the `entry` handler in
`parsePackage`: nuspec, then icon, readme, license, MCP server,
otherwise plain. -/
inductive EntryClass where
  | nuspec | icon | readme | license | mcpServer | plain
deriving DecidableEq

def classify (fileName : String) : EntryClass :=
  if strEndsWith fileName ".nuspec" then .nuspec
  else if isIconFile fileName then .icon
  else if isReadmeFile fileName then .readme
  else if isLicenseFile fileName then .license
  else if isMcpServerFile fileName then .mcpServer
  else .plain

/-! ## XML-to-model mapper (`parseNuspec`)

The xml2js library itself is external to the repository; what is embedded
here is the navigation logic of `parseNuspec` over the *output shape* of
`xml2js.Parser().parseStringPromise` (default options): an element is
either a plain string (text-only element) or an object with a `$` key
holding the attribute map (present only when the element has attributes),
a `_` key holding the text (when present alongside attributes), and one
key per child-element name holding the array of children.  JS property
access on a missing key yields `undefined`; property access *on*
`undefined` throws, which (being caught by the caller of `parseNuspec`)
is modelled by the `Option` monad returning `none`. -/

inductive XNode where
  | str (s : String)
  | obj (attrs : Option (List (String × String))) (text : Option String)
        (kids : List (String × List XNode))

/-- Child-element access `node.name` (an array of child nodes when the
key is present, `undefined` otherwise; property access on a JS string
yields `undefined`). -/
def XNode.field? : XNode → String → Option (List XNode)
  | .str _, _ => none
  | .obj _ _ kids, name => kids.lookup name

/-- Attribute-map access `node.$` (`undefined` when the element carries
no attributes). -/
def XNode.attrsOpt : XNode → Option (List (String × String))
  | .str _ => none
  | .obj attrs _ _ => attrs

/-- Attribute access `node.$.a`. -/
def attrsGet (attrs : List (String × String)) (a : String) : Option String :=
  attrs.lookup a

/-- JS truthiness of an xml2js node (an empty text node is the falsy
`""`; every object is truthy). -/
def XNode.truthyB : XNode → Bool
  | .str s => s ≠ ""
  | .obj _ _ _ => true

/-- The result object of `parseStringPromise` with default
`explicitRoot`: `{ package: <root element> }`, the key absent when the
document has a different root name. -/
structure X2JResult where
  package : Option XNode

/-- `getText` (parseNuspec helper): `undefined` when the node list is
absent or its head is falsy; otherwise the head itself when it is a
string, else its `_` text. -/
def getText (node : Option (List XNode)) : Option String :=
  match node with
  | none => none
  | some arr =>
    match arr[0]? with
    | none => none
    | some v =>
      if ¬ v.truthyB then none
      else match v with
        | .str s => some s
        | .obj _ t _ => t

/-- `getTextArray` (parseNuspec helper): comma-split, piecewise-trimmed,
empty pieces dropped; empty list when the element is absent or its text
is falsy. -/
def getTextArray (node : Option (List XNode)) : List String :=
  match node with
  | none => []
  | some arr =>
    match arr[0]? with
    | none => []
    | some v =>
      if ¬ v.truthyB then []
      else match getText (some arr) with
        | none => []
        | some t =>
          if t = "" then []
          else ((splitOnChar ',' t).map jsTrim).filter (fun s => s ≠ "")

/-! ### The typed metadata model (types.ts) -/

structure PackageDependency where
  id : Option String
  version : Option String
  targetFramework : Option String
  exclude : Option String
  «include» : Option String
deriving DecidableEq

structure PackageType where
  name : String
  version : Option String
deriving DecidableEq

structure NuGetPackageMetadata where
  id : String
  version : String
  title : Option String
  description : Option String
  authors : List String
  owners : List String
  licenseUrl : Option String
  license : Option String
  licenseType : Option String
  projectUrl : Option String
  repositoryUrl : Option String
  repositoryType : Option String
  iconUrl : Option String
  tags : List String
  releaseNotes : Option String
  copyright : Option String
  requireLicenseAcceptance : Bool
  dependencies : List PackageDependency
  language : Option String
  developmentDependency : Bool
  serviceable : Bool
  packageTypes : List PackageType
deriving DecidableEq

/-- One dependency record from a `dependency` element (`dep.$.id` throws
when the element has no attributes at all). -/
def parseDepNode (tf : Option String) (dep : XNode) : Option PackageDependency := do
  let dAttrs ← dep.attrsOpt
  pure { id := attrsGet dAttrs "id", version := attrsGet dAttrs "version",
         targetFramework := tf, exclude := attrsGet dAttrs "exclude",
         «include» := attrsGet dAttrs "include" }

/-- The dependency-extraction block of `parseNuspec` (grouped shape
checked first; bare `dependency` children only when no `group` child
key is present). -/
def parseDependencies (metadata : XNode) : Option (List PackageDependency) :=
  match metadata.field? "dependencies" with
  | none => some []
  | some dArr =>
    match dArr[0]? with
    | none => some []
    | some deps =>
      if ¬ deps.truthyB then some []
      else
        match deps.field? "group" with
        | some groups => do
            let ls ← groups.mapM (fun group => do
              let gAttrs ← group.attrsOpt
              let tf := attrsGet gAttrs "targetFramework"
              match group.field? "dependency" with
              | none => pure []
              | some ds => ds.mapM (parseDepNode tf))
            pure ls.flatten
        | none =>
          match deps.field? "dependency" with
          | some ds => ds.mapM (parseDepNode none)
          | none => some []

/-- The license-extraction block of `parseNuspec` (returns the
`license` and `licenseType` values; total, since every `$` access is
guarded there). -/
def parseLicense (metadata : XNode) : Option String × Option String :=
  match metadata.field? "license" with
  | none => (none, none)
  | some lArr =>
    match lArr[0]? with
    | none => (none, none)
    | some licenseNode =>
      if ¬ licenseNode.truthyB then (none, none)
      else
        let license := getText (some lArr)
        let licenseType :=
          match licenseNode.attrsOpt with
          | none => none
          | some attrs =>
            match attrsGet attrs "type" with
            | none => none
            | some t => if t = "" then none else some t
        (license, licenseType)

/-- One `packageType` element (`packageType.$.name` throws when the
element has no attributes; a falsy `name` attribute defaults to `""`). -/
def parsePackageTypeNode (pt : XNode) : Option PackageType := do
  let attrs ← pt.attrsOpt
  pure { name := match attrsGet attrs "name" with
                 | some n => if n = "" then "" else n
                 | none => "",
         version := attrsGet attrs "version" }

/-- The packageTypes-extraction block of `parseNuspec`. -/
def parsePackageTypes (metadata : XNode) : Option (List PackageType) :=
  match metadata.field? "packageTypes" with
  | none => some []
  | some pArr =>
    match pArr[0]? with
    | none => some []
    | some pt0 =>
      if ¬ pt0.truthyB then some []
      else match pt0.field? "packageType" with
        | none => some []
        | some pts => pts.mapM parsePackageTypeNode

/-- `metadata.repository?.[0]?.$.url` / `...$.type`: optional chaining
short-circuits on a missing `repository` key or empty array, but the
final `.$.a` access throws when the node has no attributes. -/
def parseRepoAttr (metadata : XNode) (a : String) : Option (Option String) :=
  match metadata.field? "repository" with
  | none => some none
  | some rArr =>
    match rArr[0]? with
    | none => some none
    | some r0 =>
      match r0.attrsOpt with
      | none => none
      | some attrs => some (attrsGet attrs a)

/-- `parseNuspec` after the external XML parse: navigation from the
xml2js result object to the typed metadata record.  `none` models a
thrown exception (caught by the caller, leaving `metadata` unset). -/
def parseNuspec (result : X2JResult) : Option NuGetPackageMetadata := do
  let pkg ← result.package
  let mdArr ← pkg.field? "metadata"
  let metadata ← mdArr[0]?
  let dependencies ← parseDependencies metadata
  let lp := parseLicense metadata
  let packageTypes ← parsePackageTypes metadata
  let repositoryUrl ← parseRepoAttr metadata "url"
  let repositoryType ← parseRepoAttr metadata "type"
  pure {
    id := (getText (metadata.field? "id")).getD "",
    version := (getText (metadata.field? "version")).getD "",
    title := getText (metadata.field? "title"),
    description := getText (metadata.field? "description"),
    authors := getTextArray (metadata.field? "authors"),
    owners := getTextArray (metadata.field? "owners"),
    licenseUrl := getText (metadata.field? "licenseUrl"),
    license := lp.1,
    licenseType := lp.2,
    projectUrl := getText (metadata.field? "projectUrl"),
    repositoryUrl := repositoryUrl,
    repositoryType := repositoryType,
    iconUrl := getText (metadata.field? "iconUrl"),
    tags := getTextArray (metadata.field? "tags"),
    releaseNotes := getText (metadata.field? "releaseNotes"),
    copyright := getText (metadata.field? "copyright"),
    requireLicenseAcceptance := getText (metadata.field? "requireLicenseAcceptance") == some "true",
    dependencies := dependencies,
    language := getText (metadata.field? "language"),
    developmentDependency := getText (metadata.field? "developmentDependency") == some "true",
    serviceable := getText (metadata.field? "serviceable") == some "true",
    packageTypes := packageTypes }

/-- `getMimeType`: extension-to-MIME table with binary fallback. -/
def getMimeType (filePath : String) : String :=
  let ext := strLower (extname filePath)
  if ext = ".txt" then "text/plain"
  else if ext = ".md" then "text/markdown"
  else if ext = ".json" then "application/json"
  else if ext = ".xml" then "application/xml"
  else if ext = ".yml" then "text/yaml"
  else if ext = ".yaml" then "text/yaml"
  else if ext = ".cs" then "text/x-csharp"
  else if ext = ".js" then "text/javascript"
  else if ext = ".ts" then "text/typescript"
  else if ext = ".html" then "text/html"
  else if ext = ".css" then "text/css"
  else if ext = ".png" then "image/png"
  else if ext = ".jpg" then "image/jpeg"
  else if ext = ".jpeg" then "image/jpeg"
  else if ext = ".gif" then "image/gif"
  else if ext = ".ico" then "image/x-icon"
  else if ext = ".svg" then "image/svg+xml"
  else "application/octet-stream"

/-! ## The archive scan of `parsePackage`

A yauzl archive that opened successfully is modelled as the list of its
entries in central-directory order.  Per entry, `stream = some s` means
`openReadStream` succeeds and draining the stream buffers the content
`s`; `stream = none` means the `openReadStream` callback receives an
error (the skip-and-continue paths of the `entry` handler).  The
external XML parse `xml2js.parseStringPromise` is a parameter
`xmlParse : String → Option X2JResult` (`none` = the promise rejects on
malformed XML); the manifest decode used by the scan is
`(xmlParse s).bind parseNuspec`, whose failure is caught and leaves
`metadata` untouched. -/

structure ZipEntry where
  fileName : String
  uncompressedSize : Nat
  stream : Option String
deriving DecidableEq

/-- The `PackageFile` record (types.ts); `children` holds node
references, modelled as indices into the store of the built tree
(mirroring JS object identity). -/
structure PackageFile where
  path : String
  name : String
  size : Nat
  isDirectory : Bool
  children : Option (List Nat)
deriving DecidableEq

/-- The `FileEntry` recorded unconditionally for every archive entry
(lines 48-54 of packageParser.ts). -/
def toPackageFile (e : ZipEntry) : PackageFile :=
  { path := e.fileName, name := basename e.fileName,
    size := e.uncompressedSize,
    isDirectory := strEndsWith e.fileName "/", children := none }

/-- The mutable accumulator variables of one `parsePackage` call. -/
structure ScanState where
  files : List PackageFile
  nuspecContent : Option String
  iconData : Option String
  metadata : Option NuGetPackageMetadata
  readmeContent : Option String
  readmePath : Option String
  licenseContent : Option String
  licensePath : Option String
  mcpServerContent : Option String
  mcpServerPath : Option String
deriving DecidableEq

def initScan : ScanState :=
  { files := [], nuspecContent := none, iconData := none, metadata := none,
    readmeContent := none, readmePath := none, licenseContent := none,
    licensePath := none, mcpServerContent := none, mcpServerPath := none }

/-- The `entry` event handler: record the `FileEntry`, then classify and
(for classified entries whose stream opens) capture the buffered
content.  A stream-open error logs and continues with the next entry.
`readmePath` / `licensePath` / `mcpServerPath` are assigned *before* the
stream is opened; a manifest decode failure is caught and leaves
`metadata` as it was. -/
def stepEntry (xmlParse : String → Option X2JResult) (st : ScanState) (e : ZipEntry) : ScanState :=
  let st := { st with files := st.files ++ [toPackageFile e] }
  match classify e.fileName with
  | .nuspec =>
    match e.stream with
    | none => st
    | some content =>
      { st with nuspecContent := some content,
                metadata := match (xmlParse content).bind parseNuspec with
                            | some m => some m
                            | none => st.metadata }
  | .icon =>
    match e.stream with
    | none => st
    | some content => { st with iconData := some content }
  | .readme =>
    let st := { st with readmePath := some e.fileName }
    match e.stream with
    | none => st
    | some content => { st with readmeContent := some content }
  | .license =>
    let st := { st with licensePath := some e.fileName }
    match e.stream with
    | none => st
    | some content => { st with licenseContent := some content }
  | .mcpServer =>
    let st := { st with mcpServerPath := some e.fileName }
    match e.stream with
    | none => st
    | some content => { st with mcpServerContent := some content }
  | .plain => st

def scanEntries (xmlParse : String → Option X2JResult) (entries : List ZipEntry) : ScanState :=
  entries.foldl (stepEntry xmlParse) initScan

/-! ## The file tree builder (`buildFileTree`)

JS object references are modelled by indices into a `store` of all
created `PackageFile` nodes: `tree` is the list of top-level node
indices, `pathMap` the `Map` from path to node reference (`Map.set`
replaces, modelled by cons + first-match lookup), and a node's
`children` array holds the indices of its children in push order. -/

structure TreeSt where
  store : List PackageFile
  tree : List Nat
  pathMap : List (String × Nat)
deriving DecidableEq

def pmGet (m : List (String × Nat)) (k : String) : Option Nat := m.lookup k

def pmSet (m : List (String × Nat)) (k : String) (v : Nat) : List (String × Nat) :=
  (k, v) :: m

/-- `currentLevel.push(x)` when `currentLevel` is the top-level `tree`
array. -/
def pushTop (st : TreeSt) (i : Nat) : TreeSt := { st with tree := st.tree ++ [i] }

/-- `currentLevel.push(x)` when `currentLevel` is the `children` array
of the node `parent` (a missing `children` array reads as `[]`). -/
def pushChild (st : TreeSt) (parent i : Nat) : TreeSt :=
  match st.store[parent]? with
  | some nd =>
    { st with store := st.store.set parent { nd with children := some ((nd.children.getD []) ++ [i]) } }
  | none => st

def pushInto (st : TreeSt) (c : Option Nat) (i : Nat) : TreeSt :=
  match c with
  | none => pushTop st i
  | some p => pushChild st p i

/-- `if (!existing.children) { existing.children = []; }` (a JS array is
truthy even when empty, so only a missing array is replaced). -/
def ensureChildren (st : TreeSt) (i : Nat) : TreeSt :=
  match st.store[i]? with
  | some nd =>
    match nd.children with
    | none => { st with store := st.store.set i { nd with children := some [] } }
    | some _ => st
  | none => st

/-- The ancestor-walk loop of `buildFileTree` (`for i = 0 .. parts.length - 2`):
incrementally extends `currentPath`, looks each directory key up in
`pathMap`, creates missing directory nodes (size 0, `children = []`),
pushes them into the current level and registers them, and descends.
Returns the state, the container of the final level (`none` = top) and
the accumulated `currentPath`. -/
def walkAncestors (st : TreeSt) (c : Option Nat) (curPath : String) :
    List String → TreeSt × Option Nat × String
  | [] => (st, c, curPath)
  | seg :: rest =>
    let newPath := if curPath = "" then seg else curPath ++ "/" ++ seg
    let key := newPath ++ "/"
    match pmGet st.pathMap key with
    | some idx =>
      let st := ensureChildren st idx
      walkAncestors st (some idx) newPath rest
    | none =>
      let idx := st.store.length
      let dir : PackageFile :=
        { path := key, name := seg, size := 0, isDirectory := true, children := some [] }
      let st := { st with store := st.store ++ [dir] }
      let st := pushInto st c idx
      let st := { st with pathMap := pmSet st.pathMap key idx }
      walkAncestors st (some idx) newPath rest

/-- The per-file body of the `buildFileTree` loop. -/
def addFile (st : TreeSt) (f : PackageFile) : TreeSt :=
  let parts := segs f.path
  if parts.length = 1 then
    let idx := st.store.length
    let st := { st with store := st.store ++ [f] }
    let st := pushTop st idx
    { st with pathMap := pmSet st.pathMap f.path idx }
  else
    match walkAncestors st none "" parts.dropLast with
    | (st, c, _) =>
      let idx := st.store.length
      let st := { st with store := st.store ++ [f] }
      let st := pushInto st c idx
      { st with pathMap := pmSet st.pathMap f.path idx }

/-- The sort comparator `(a, b) => a.path.localeCompare(b.path)`,
modelled as lexicographic code-point order on paths. -/
def pathLe (a b : PackageFile) : Prop := charLe a.path.data b.path.data = true

instance : DecidableRel pathLe := fun a b =>
  inferInstanceAs (Decidable (charLe a.path.data b.path.data = true))

/-- `buildFileTree`: sort the flat list by path, then fold the per-file
insertion over the empty state. -/
def buildFileTree (files : List PackageFile) : TreeSt :=
  (files.insertionSort pathLe).foldl addFile { store := [], tree := [], pathMap := [] }

/-- Depth-first traversal of one subtree, fuel-bounded (child indices
strictly exceed their parent's, so `store.length` fuel always
suffices). -/
def flattenFrom (store : List PackageFile) : Nat → Nat → List Nat
  | 0, _ => []
  | fuel + 1, i =>
    i :: (match store[i]? with
          | none => []
          | some nd => (nd.children.getD []).flatMap (flattenFrom store fuel))

/-- All node indices of the built tree in depth-first order. -/
def flattenTree (st : TreeSt) : List Nat :=
  st.tree.flatMap (flattenFrom st.store st.store.length)

/-- Every node's `path`, collected depth-first over the whole tree. -/
def flattenPaths (st : TreeSt) : List String :=
  (flattenTree st).filterMap (fun i => (st.store[i]?).map (fun nd => nd.path))

/-- The paths of the top-level siblings, in order. -/
def treePaths (st : TreeSt) : List String :=
  st.tree.filterMap (fun i => (st.store[i]?).map (fun nd => nd.path))

/-- Slash-interleaving of a segment list (the way the walk accumulates
`currentPath`). -/
def joinSegs : List String → String
  | [] => ""
  | [s] => s
  | s :: rest => s ++ "/" ++ joinSegs rest

/-- The directory key implied by a (nonempty) segment chain. -/
def dirKeyOf (l : List String) : String := joinSegs l ++ "/"

/-- The directories implied by a path: one for each proper nonempty
segment-chain of the path (spec §4.4: empty segments are ignored). -/
def impliedDirs (p : String) : List String :=
  ((List.range (segs p).length).drop 1).map (fun i => dirKeyOf ((segs p).take i))

/-- The input path set closed under directory implication, without
repetitions. -/
def closurePaths (files : List PackageFile) : List String :=
  ((files.map (fun f => f.path)) ++ files.flatMap (fun f => impliedDirs f.path)).dedup

/-- A path in canonical slash-separated form: exactly the interleaving
of its nonempty segments with single slashes, with at most a trailing
slash (no leading slash, no empty internal segment). -/
def canonicalPath (p : String) : Prop :=
  p = joinSegs (segs p) ∨ p = joinSegs (segs p) ++ "/"

instance (p : String) : Decidable (canonicalPath p) :=
  inferInstanceAs (Decidable (_ ∨ _))

/-- Lexicographic code-point order on strings. -/
def strLe (a b : String) : Prop := charLe a.data b.data = true

/-- The initial portion of a path through its first slash (inclusive):
for a canonical path, the path of the top-level node that adopting the
path creates or reuses. -/
def tts : List Char → List Char
  | [] => []
  | c :: t => if c = '/' then ['/'] else c :: tts t

/-- All child indices stored anywhere in a store. -/
def childBound (store : List PackageFile) : Prop :=
  ∀ (k : Nat) (nd : PackageFile), store[k]? = some nd →
    ∀ j ∈ nd.children.getD [], k < j ∧ j < store.length

/-- The structural invariant of the tree-builder state: children point
strictly forward in a bounded store, the top level is bounded, the
depth-first traversal enumerates exactly the store's indices, and the
path map is a sound and complete index of the store by path. -/
def TreeInv (st : TreeSt) : Prop :=
  childBound st.store ∧
  (∀ j ∈ st.tree, j < st.store.length) ∧
  ((flattenTree st : Multiset Nat) = (List.range st.store.length : List Nat)) ∧
  (∀ (p : String) (i : Nat), pmGet st.pathMap p = some i →
    ∃ nd, st.store[i]? = some nd ∧ nd.path = p) ∧
  (∀ (k : Nat) (nd : PackageFile), st.store[k]? = some nd →
    ∃ i, pmGet st.pathMap nd.path = some i)

/-- The create-and-push step shared by the ancestor walk and the
per-file insertion: allocate the node at the end of the store, push its
reference into the current container and register it in the path map. -/
def allocPush (st : TreeSt) (c : Option Nat) (nd : PackageFile) (key : String) : TreeSt :=
  let idx := st.store.length
  let st1 := { st with store := st.store ++ [nd] }
  let st2 := pushInto st1 c idx
  { st2 with pathMap := pmSet st2.pathMap key idx }

/-- The directory keys the ancestor walk probes, in order. -/
def walkKeys : String → List String → List String
  | _, [] => []
  | cur, seg :: rest =>
    let newPath := if cur = "" then seg else cur ++ "/" ++ seg
    (newPath ++ "/") :: walkKeys newPath rest

/-- Node-shape preservation: same paths, names, sizes and directory
flags pointwise (children may differ). -/
def samePaths (store1 store0 : List PackageFile) : Prop :=
  ∀ (k : Nat) (nd2 : PackageFile), store1[k]? = some nd2 → ∃ nd1, store0[k]? = some nd1 ∧
    nd2.path = nd1.path ∧ nd2.name = nd1.name ∧ nd2.size = nd1.size ∧
    nd2.isDirectory = nd1.isDirectory

/-! ## Assembling `PackageContent` and the two operations -/

structure PackageContent where
  metadata : NuGetPackageMetadata
  files : TreeSt
  nuspecContent : Option String
  iconData : Option String
  readmeContent : Option String
  readmePath : Option String
  licenseContent : Option String
  licensePath : Option String
  mcpServerContent : Option String
  mcpServerPath : Option String
deriving DecidableEq

inductive ParseErr where
  | missingMetadata
deriving DecidableEq

/-- `parsePackage` on an archive that opened successfully: scan all
entries, fail with the missing-metadata error when no manifest decode
ever produced metadata, otherwise build the file tree and assemble the
result. -/
def parsePackage (xmlParse : String → Option X2JResult) (entries : List ZipEntry) :
    Except ParseErr PackageContent :=
  let st := scanEntries xmlParse entries
  match st.metadata with
  | none => .error .missingMetadata
  | some md =>
    .ok { metadata := md, files := buildFileTree st.files,
          nuspecContent := st.nuspecContent, iconData := st.iconData,
          readmeContent := st.readmeContent, readmePath := st.readmePath,
          licenseContent := st.licenseContent, licensePath := st.licensePath,
          mcpServerContent := st.mcpServerContent, mcpServerPath := st.mcpServerPath }

inductive GetErr where
  | fileNotFound
  | streamError
deriving DecidableEq

instance {ε α : Type} [DecidableEq ε] [DecidableEq α] : DecidableEq (Except ε α)
  | .error e, .error f => decidable_of_iff (e = f) (by simp)
  | .error _, .ok _ => isFalse (by simp)
  | .ok _, .error _ => isFalse (by simp)
  | .ok a, .ok b => decidable_of_iff (a = b) (by simp)

structure FileContent where
  path : String
  content : String
  mimeType : String
deriving DecidableEq

/-- `getFileContent` on an archive that opened successfully: scan
entries until `entry.fileName === filePath` (exact, case-sensitive); a
stream failure on the matching entry rejects, end of iteration without
a match rejects with the not-found error. -/
def getFileContent (entries : List ZipEntry) (filePath : String) : Except GetErr FileContent :=
  match entries with
  | [] => .error .fileNotFound
  | e :: rest =>
    if e.fileName = filePath then
      match e.stream with
      | none => .error .streamError
      | some s => .ok { path := filePath, content := s, mimeType := getMimeType filePath }
    else getFileContent rest filePath

/-- The optional content field of `PackageContent` corresponding to a
classified non-manifest entry class. -/
def classContent : EntryClass → PackageContent → Option String
  | .icon => fun pc => pc.iconData
  | .readme => fun pc => pc.readmeContent
  | .license => fun pc => pc.licenseContent
  | .mcpServer => fun pc => pc.mcpServerContent
  | _ => fun _ => none

/-- The scan-state field corresponding to a classified non-manifest
entry class. -/
def classContentS : EntryClass → ScanState → Option String
  | .icon => fun st => st.iconData
  | .readme => fun st => st.readmeContent
  | .license => fun st => st.licenseContent
  | .mcpServer => fun st => st.mcpServerContent
  | _ => fun _ => none

/-- A minimal xml2js result a manifest can decode to (root `package`
element with one empty `metadata` child). -/
def resEmpty : X2JResult := ⟨some (.obj none none [("metadata", [.obj none none []])])⟩

/-- An external XML parse that accepts every document as `resEmpty`
(standing in for a well-formed minimal manifest). -/
def xpEmpty : String → Option X2JResult := fun _ => some resEmpty

/-- An xml2js result whose root `package` element holds a single
`metadata` element with the given children. -/
def mkMetaResult (kids : List (String × List XNode)) : X2JResult :=
  ⟨some (.obj none none [("metadata", [.obj none none kids])])⟩

/-- A concrete archive with two entries of each classified kind (the
second of each kind appearing later in central-directory order). -/
def entriesW : List ZipEntry :=
  [⟨"p.nuspec", 1, some "m"⟩, ⟨"README.md", 1, some "r1"⟩, ⟨"icon.png", 1, some "i1"⟩,
   ⟨"LICENSE", 1, some "l1"⟩, ⟨".mcp/server.json", 1, some "m1"⟩,
   ⟨"docs/readme.txt", 1, some "r2"⟩, ⟨"assets/icon2.png", 1, some "i2"⟩,
   ⟨"license.txt", 1, some "l2"⟩, ⟨".MCP/Server.json", 1, some "m2"⟩]

/-! ## Generic lemmas: characters, prefixes, lexicographic order -/

theorem toNat_ofNat_valid (n : Nat) (h : n.isValidChar) : (Char.ofNat n).toNat = n := by
  simp only [Char.ofNat, h, dite_true, Char.ofNatAux, Char.toNat]
  rfl

theorem toLower_toNat (c : Char) :
    (Char.toLower c).toNat = if 65 ≤ c.toNat ∧ c.toNat ≤ 90 then c.toNat + 32 else c.toNat := by
  unfold Char.toLower
  split
  · next h =>
    rw [if_pos (by omega)]
    exact toNat_ofNat_valid _ (Or.inl (by omega))
  · next h =>
    rw [if_neg (by omega)]

theorem toNat_inj_char {c d : Char} (h : c.toNat = d.toNat) : c = d := by
  apply Char.eq_of_val_eq
  exact UInt32.toNat.inj h

/-- `toLower` moves nothing onto a non-letter character below code 65
(such as `/` or `.`). -/
theorem toLower_eq_low {c d : Char} (hd : d.toNat < 65) : (Char.toLower c = d) ↔ (c = d) := by
  constructor
  · intro h
    have h2 := toLower_toNat c
    rw [h] at h2
    by_cases hc : 65 ≤ c.toNat ∧ c.toNat ≤ 90
    · rw [if_pos hc] at h2; omega
    · rw [if_neg hc] at h2; exact toNat_inj_char h2.symm
  · intro h
    subst h
    have h2 := toLower_toNat c
    rw [if_neg (by omega)] at h2
    exact toNat_inj_char h2

theorem isPre_head {a : Char} {as l : List Char} (h : isPre (a :: as) l = true) :
    ∃ t, l = a :: t ∧ isPre as t = true := by
  cases l with
  | nil => simp [isPre] at h
  | cons b bs =>
    simp only [isPre, Bool.and_eq_true, beq_iff_eq] at h
    exact ⟨bs, by rw [h.1], h.2⟩

theorem isPre_map (g : Char → Char) : ∀ {p l : List Char}, isPre p l = true →
    isPre (p.map g) (l.map g) = true
  | [], _, _ => rfl
  | a :: as, l, h => by
    obtain ⟨t, rfl, ht⟩ := isPre_head h
    simp only [List.map_cons, isPre, beq_self_eq_true, Bool.true_and]
    exact isPre_map g ht

theorem isPre_append (p t : List Char) : isPre p (p ++ t) = true := by
  induction p with
  | nil => rfl
  | cons a as ih => simp [isPre, ih]

theorem isPre_iff_append {p l : List Char} : isPre p l = true ↔ ∃ t, l = p ++ t := by
  constructor
  · intro h
    induction p generalizing l with
    | nil => exact ⟨l, rfl⟩
    | cons a as ih =>
      obtain ⟨t, rfl, ht⟩ := isPre_head h
      obtain ⟨u, rfl⟩ := ih ht
      exact ⟨u, rfl⟩
  · rintro ⟨t, rfl⟩
    exact isPre_append p t

theorem charLe_refl (l : List Char) : charLe l l = true := by
  induction l with
  | nil => rfl
  | cons a as ih => simp [charLe, ih]

theorem charLe_total (a b : List Char) : charLe a b = true ∨ charLe b a = true := by
  induction a generalizing b with
  | nil => exact Or.inl rfl
  | cons x xs ih =>
    cases b with
    | nil => exact Or.inr rfl
    | cons y ys =>
      rcases lt_trichotomy x y with h | h | h
      · exact Or.inl (by simp [charLe, h])
      · subst h
        rcases ih ys with h2 | h2
        · exact Or.inl (by simp [charLe, lt_irrefl, h2])
        · exact Or.inr (by simp [charLe, lt_irrefl, h2])
      · exact Or.inr (by simp [charLe, h])

theorem charLe_antisymm : ∀ {a b : List Char}, charLe a b = true → charLe b a = true → a = b
  | [], [], _, _ => rfl
  | [], _ :: _, _, h2 => by simp [charLe] at h2
  | _ :: _, [], h1, _ => by simp [charLe] at h1
  | x :: xs, y :: ys, h1, h2 => by
    rcases lt_trichotomy x y with h | h | h
    · simp [charLe, h, asymm h] at h2
    · subst h
      simp only [charLe, lt_irrefl, if_false] at h1 h2
      rw [charLe_antisymm h1 h2]
    · simp [charLe, h, asymm h] at h1

theorem charLe_trans : ∀ {a b c : List Char}, charLe a b = true → charLe b c = true →
    charLe a c = true
  | [], _, _, _, _ => rfl
  | _ :: _, [], _, h1, _ => by simp [charLe] at h1
  | _ :: _, _ :: _, [], _, h2 => by simp [charLe] at h2
  | x :: xs, y :: ys, z :: zs, h1, h2 => by
    simp only [charLe] at h1 h2 ⊢
    rcases lt_trichotomy x y with hxy | hxy | hxy
    · rcases lt_trichotomy y z with hyz | hyz | hyz
      · simp [lt_trans hxy hyz]
      · subst hyz; simp [hxy]
      · simp [hyz, asymm hyz] at h2
    · subst hxy
      rcases lt_trichotomy x z with hxz | hxz | hxz
      · simp [hxz]
      · subst hxz
        simp only [lt_irrefl, if_false] at h1 h2 ⊢
        exact charLe_trans h1 h2
      · simp [hxz, asymm hxz] at h2
    · simp [hxy, asymm hxy] at h1

/-- A proper initial part is strictly below any extension. -/
theorem charLe_of_append (p t : List Char) : charLe p (p ++ t) = true := by
  induction p with
  | nil => rfl
  | cons a as ih => simp [charLe, ih]

theorem charLe_append_ne (p : List Char) {t : List Char} (h : t ≠ []) : p ++ t ≠ p := by
  intro hc
  have h2 := congrArg List.length hc
  simp at h2
  exact h h2

instance : IsTotal PackageFile pathLe :=
  ⟨fun a b => charLe_total a.path.data b.path.data⟩

instance : IsTrans PackageFile pathLe :=
  ⟨fun _ _ _ h1 h2 => charLe_trans h1 h2⟩

/-! ## Scan-level lemmas -/

theorem classify_eq_nuspec {f : String} :
    classify f = EntryClass.nuspec ↔ strEndsWith f ".nuspec" = true := by
  unfold classify
  by_cases hend : strEndsWith f ".nuspec" = true
  · simp [hend]
  · rw [if_neg hend]
    constructor
    · intro h
      exfalso
      repeat' split at h
      all_goals simp_all
    · intro h
      exact absurd h hend

theorem stepEntry_files (xp : String → Option X2JResult) (st : ScanState) (e : ZipEntry) :
    (stepEntry xp st e).files = st.files ++ [toPackageFile e] := by
  unfold stepEntry
  cases classify e.fileName <;> (try cases e.stream) <;> rfl

theorem stepEntry_metadata_pres (xp : String → Option X2JResult) (st : ScanState) (e : ZipEntry)
    (h : classify e.fileName ≠ EntryClass.nuspec) :
    (stepEntry xp st e).metadata = st.metadata := by
  unfold stepEntry
  cases hc : classify e.fileName <;> (try cases e.stream) <;> first
    | rfl
    | exact absurd hc h

theorem stepEntry_metadata_none (xp : String → Option X2JResult) (st : ScanState) (e : ZipEntry)
    (hst : st.metadata = none)
    (h : strEndsWith e.fileName ".nuspec" = true →
         ∀ s, e.stream = some s → (xp s).bind parseNuspec = none) :
    (stepEntry xp st e).metadata = none := by
  by_cases hc : classify e.fileName = EntryClass.nuspec
  · have hend := classify_eq_nuspec.mp hc
    unfold stepEntry
    rw [hc]
    cases hs : e.stream with
    | none => exact hst
    | some s =>
      have hd := h hend s hs
      simp only [hd, hst]
  · rw [stepEntry_metadata_pres xp st e hc]
    exact hst

theorem scan_metadata_none (xp : String → Option X2JResult) :
    ∀ (entries : List ZipEntry) (st : ScanState), st.metadata = none →
    (∀ e ∈ entries, strEndsWith e.fileName ".nuspec" = true →
       ∀ s, e.stream = some s → (xp s).bind parseNuspec = none) →
    (List.foldl (stepEntry xp) st entries).metadata = none
  | [], _, hst, _ => hst
  | e :: rest, st, hst, h => by
    rw [List.foldl_cons]
    exact scan_metadata_none xp rest _
      (stepEntry_metadata_none xp st e hst (h e (by simp)))
      (fun e2 he2 => h e2 (by simp [he2]))

/-- C1: for every archive that opens successfully but in which no
metadata is ever produced (every entry ending in `.nuspec` either fails
to stream or fails to decode — in particular when there is no such
entry at all), `parsePackage` fails with the missing-metadata error and
returns no (partial) `PackageContent`. -/
theorem parsePackage_missingMetadata (xp : String → Option X2JResult) (entries : List ZipEntry)
    (h : ∀ e ∈ entries, strEndsWith e.fileName ".nuspec" = true →
         ∀ s, e.stream = some s → (xp s).bind parseNuspec = none) :
    parsePackage xp entries = .error .missingMetadata := by
  have hm : (scanEntries xp entries).metadata = none :=
    scan_metadata_none xp entries initScan rfl h
  simp only [parsePackage, hm]

theorem parsePackage_missingMetadata_witness :
    parsePackage (fun _ => none)
      [⟨"content/data.bin", 3, some "x"⟩, ⟨"pkg.nuspec", 7, some "bad"⟩] =
      .error .missingMetadata :=
  parsePackage_missingMetadata (fun _ => none) _ (fun _ _ _ _ _ => rfl)

/-- C3 counterexample: a stream-level failure while extracting the
manifest entry does *not* abort the parse with a stream error.  With a
failing manifest stream followed by a good manifest, the parse continues
over the remaining entries and succeeds; with the failing manifest
alone, it fails with the missing-metadata error, not a stream error. -/
theorem nuspecStreamFailure_cex :
    (parsePackage xpEmpty [⟨"bad.nuspec", 0, none⟩, ⟨"good.nuspec", 5, some "x"⟩]).isOk = true ∧
    parsePackage xpEmpty [⟨"bad.nuspec", 0, none⟩] = .error .missingMetadata := by
  constructor
  · decide
  · decide

/-- C3 (amended): a stream-open failure on a `.nuspec` entry merely
records the entry's `FileEntry` and skips it — the scan state is
otherwise unchanged and iteration continues — and `parsePackage` on an
archive that opened successfully can only fail with the
missing-metadata error (never a stream error). -/
theorem nuspecStreamFailure_skips (xp : String → Option X2JResult) (st : ScanState)
    (e : ZipEntry) (h1 : strEndsWith e.fileName ".nuspec" = true) (h2 : e.stream = none) :
    stepEntry xp st e = { st with files := st.files ++ [toPackageFile e] } ∧
    ∀ entries, parsePackage xp entries = .error .missingMetadata ∨
      (parsePackage xp entries).isOk = true := by
  constructor
  · have hc : classify e.fileName = EntryClass.nuspec := classify_eq_nuspec.mpr h1
    unfold stepEntry
    rw [hc, h2]
  · intro entries
    cases hm : (scanEntries xp entries).metadata
    · exact Or.inl (by simp only [parsePackage, hm])
    · exact Or.inr (by simp only [parsePackage, hm, Except.isOk, Except.toBool])

theorem nuspecStreamFailure_skips_witness :
    stepEntry xpEmpty initScan ⟨"pkg.nuspec", 3, none⟩ =
      { initScan with files := initScan.files ++ [toPackageFile ⟨"pkg.nuspec", 3, none⟩] } ∧
    ∀ entries, parsePackage xpEmpty entries = .error .missingMetadata ∨
      (parsePackage xpEmpty entries).isOk = true :=
  nuspecStreamFailure_skips xpEmpty initScan ⟨"pkg.nuspec", 3, none⟩ (by decide) rfl

/-! ## `getFileContent` -/

theorem getFileContent_found : ∀ (pre : List ZipEntry) (e : ZipEntry) (post : List ZipEntry)
    (fp s : String), (∀ e2 ∈ pre, e2.fileName ≠ fp) → e.fileName = fp → e.stream = some s →
    getFileContent (pre ++ e :: post) fp = .ok ⟨fp, s, getMimeType fp⟩
  | [], e, post, fp, s, _, he, hs => by
    simp only [List.nil_append, getFileContent, if_pos he, hs]
  | p :: pre, e, post, fp, s, hpre, he, hs => by
    have hp : p.fileName ≠ fp := hpre p (by simp)
    simp only [List.cons_append, getFileContent, if_neg hp]
    exact getFileContent_found pre e post fp s (fun e2 h2 => hpre e2 (by simp [h2])) he hs

theorem getFileContent_notFound : ∀ (entries : List ZipEntry) (fp : String),
    getFileContent entries fp = .error .fileNotFound ↔ ∀ e ∈ entries, e.fileName ≠ fp
  | [], fp => by simp [getFileContent]
  | e :: rest, fp => by
    by_cases he : e.fileName = fp
    · simp only [getFileContent, if_pos he]
      cases e.stream <;> simp [he]
    · simp only [getFileContent, if_neg he]
      rw [getFileContent_notFound rest fp]
      constructor
      · intro h e2 h2
        rcases List.mem_cons.mp h2 with rfl | h2
        · exact he
        · exact h e2 h2
      · intro h e2 h2
        exact h e2 (by simp [h2])

/-- C8: `getFileContent` scans entries until the first whose path equals
the requested path exactly (case-sensitive); when such an entry exists
(and its stream opens) it resolves with that entry's buffered bytes and
the extension-inferred MIME type, and it fails with the file-not-found
error iff iteration completes with no exact match. -/
theorem getFileContent_spec (entries : List ZipEntry) (fp : String) :
    (∀ pre e post s, entries = pre ++ e :: post → (∀ e2 ∈ pre, e2.fileName ≠ fp) →
       e.fileName = fp → e.stream = some s →
       getFileContent entries fp = .ok ⟨fp, s, getMimeType fp⟩) ∧
    (getFileContent entries fp = .error .fileNotFound ↔ ∀ e ∈ entries, e.fileName ≠ fp) := by
  constructor
  · intro pre e post s hsplit hpre he hs
    rw [hsplit]
    exact getFileContent_found pre e post fp s hpre he hs
  · exact getFileContent_notFound entries fp

theorem getFileContent_spec_witness :
    getFileContent [⟨"x.bin", 1, some "b"⟩, ⟨"a.md", 2, some "hi"⟩] "a.md" =
      .ok ⟨"a.md", "hi", getMimeType "a.md"⟩ ∧
    (getFileContent [⟨"x.bin", 1, some "b"⟩] "a.md" = .error .fileNotFound ↔
      ∀ e ∈ [(⟨"x.bin", 1, some "b"⟩ : ZipEntry)], e.fileName ≠ "a.md") := by
  constructor
  · exact (getFileContent_spec [⟨"x.bin", 1, some "b"⟩, ⟨"a.md", 2, some "hi"⟩] "a.md").1
      [⟨"x.bin", 1, some "b"⟩] ⟨"a.md", 2, some "hi"⟩ [] "hi" rfl (by decide) rfl rfl
  · exact (getFileContent_spec [⟨"x.bin", 1, some "b"⟩] "a.md").2

/-! ## Last-capture behaviour of the scan -/

theorem stepEntry_readme_pres (xp : String → Option X2JResult) (st : ScanState) (e : ZipEntry)
    (h : classify e.fileName ≠ EntryClass.readme) :
    (stepEntry xp st e).readmeContent = st.readmeContent ∧
    (stepEntry xp st e).readmePath = st.readmePath := by
  unfold stepEntry
  cases hc : classify e.fileName <;> (try cases e.stream) <;> first
    | exact ⟨rfl, rfl⟩
    | exact absurd hc h

theorem stepEntry_icon_pres (xp : String → Option X2JResult) (st : ScanState) (e : ZipEntry)
    (h : classify e.fileName ≠ EntryClass.icon) :
    (stepEntry xp st e).iconData = st.iconData := by
  unfold stepEntry
  cases hc : classify e.fileName <;> (try cases e.stream) <;> first
    | rfl
    | exact absurd hc h

theorem stepEntry_license_pres (xp : String → Option X2JResult) (st : ScanState) (e : ZipEntry)
    (h : classify e.fileName ≠ EntryClass.license) :
    (stepEntry xp st e).licenseContent = st.licenseContent ∧
    (stepEntry xp st e).licensePath = st.licensePath := by
  unfold stepEntry
  cases hc : classify e.fileName <;> (try cases e.stream) <;> first
    | exact ⟨rfl, rfl⟩
    | exact absurd hc h

theorem stepEntry_mcp_pres (xp : String → Option X2JResult) (st : ScanState) (e : ZipEntry)
    (h : classify e.fileName ≠ EntryClass.mcpServer) :
    (stepEntry xp st e).mcpServerContent = st.mcpServerContent ∧
    (stepEntry xp st e).mcpServerPath = st.mcpServerPath := by
  unfold stepEntry
  cases hc : classify e.fileName <;> (try cases e.stream) <;> first
    | exact ⟨rfl, rfl⟩
    | exact absurd hc h

theorem scanFold_readme_pres (xp : String → Option X2JResult) : ∀ (post : List ZipEntry)
    (st : ScanState), (∀ e ∈ post, classify e.fileName ≠ EntryClass.readme) →
    (List.foldl (stepEntry xp) st post).readmeContent = st.readmeContent ∧
    (List.foldl (stepEntry xp) st post).readmePath = st.readmePath
  | [], _, _ => ⟨rfl, rfl⟩
  | e :: rest, st, h => by
    rw [List.foldl_cons]
    have h1 := stepEntry_readme_pres xp st e (h e (by simp))
    have h2 := scanFold_readme_pres xp rest (stepEntry xp st e)
      (fun e2 he2 => h e2 (by simp [he2]))
    exact ⟨h2.1.trans h1.1, h2.2.trans h1.2⟩

theorem scanFold_icon_pres (xp : String → Option X2JResult) : ∀ (post : List ZipEntry)
    (st : ScanState), (∀ e ∈ post, classify e.fileName ≠ EntryClass.icon) →
    (List.foldl (stepEntry xp) st post).iconData = st.iconData
  | [], _, _ => rfl
  | e :: rest, st, h => by
    rw [List.foldl_cons]
    exact (scanFold_icon_pres xp rest (stepEntry xp st e)
      (fun e2 he2 => h e2 (by simp [he2]))).trans
      (stepEntry_icon_pres xp st e (h e (by simp)))

theorem scanFold_license_pres (xp : String → Option X2JResult) : ∀ (post : List ZipEntry)
    (st : ScanState), (∀ e ∈ post, classify e.fileName ≠ EntryClass.license) →
    (List.foldl (stepEntry xp) st post).licenseContent = st.licenseContent ∧
    (List.foldl (stepEntry xp) st post).licensePath = st.licensePath
  | [], _, _ => ⟨rfl, rfl⟩
  | e :: rest, st, h => by
    rw [List.foldl_cons]
    have h1 := stepEntry_license_pres xp st e (h e (by simp))
    have h2 := scanFold_license_pres xp rest (stepEntry xp st e)
      (fun e2 he2 => h e2 (by simp [he2]))
    exact ⟨h2.1.trans h1.1, h2.2.trans h1.2⟩

theorem scanFold_mcp_pres (xp : String → Option X2JResult) : ∀ (post : List ZipEntry)
    (st : ScanState), (∀ e ∈ post, classify e.fileName ≠ EntryClass.mcpServer) →
    (List.foldl (stepEntry xp) st post).mcpServerContent = st.mcpServerContent ∧
    (List.foldl (stepEntry xp) st post).mcpServerPath = st.mcpServerPath
  | [], _, _ => ⟨rfl, rfl⟩
  | e :: rest, st, h => by
    rw [List.foldl_cons]
    have h1 := stepEntry_mcp_pres xp st e (h e (by simp))
    have h2 := scanFold_mcp_pres xp rest (stepEntry xp st e)
      (fun e2 he2 => h e2 (by simp [he2]))
    exact ⟨h2.1.trans h1.1, h2.2.trans h1.2⟩

theorem parsePackage_ok_eq {xp : String → Option X2JResult} {entries : List ZipEntry}
    {pc : PackageContent} (h : parsePackage xp entries = .ok pc) :
    (scanEntries xp entries).metadata = some pc.metadata ∧
    pc.files = buildFileTree (scanEntries xp entries).files ∧
    pc.nuspecContent = (scanEntries xp entries).nuspecContent ∧
    pc.iconData = (scanEntries xp entries).iconData ∧
    pc.readmeContent = (scanEntries xp entries).readmeContent ∧
    pc.readmePath = (scanEntries xp entries).readmePath ∧
    pc.licenseContent = (scanEntries xp entries).licenseContent ∧
    pc.licensePath = (scanEntries xp entries).licensePath ∧
    pc.mcpServerContent = (scanEntries xp entries).mcpServerContent ∧
    pc.mcpServerPath = (scanEntries xp entries).mcpServerPath := by
  simp only [parsePackage] at h
  cases hm : (scanEntries xp entries).metadata with
  | none => rw [hm] at h; cases h
  | some md =>
    rw [hm] at h
    injection h with h
    subst h
    exact ⟨rfl, rfl, rfl, rfl, rfl, rfl, rfl, rfl, rfl, rfl⟩

theorem scanEntries_split (xp : String → Option X2JResult) (pre : List ZipEntry) (e : ZipEntry)
    (post : List ZipEntry) :
    scanEntries xp (pre ++ e :: post) =
      List.foldl (stepEntry xp) (stepEntry xp (List.foldl (stepEntry xp) initScan pre) e) post := by
  simp [scanEntries, List.foldl_append]

/-- C9: when several entries classify into the same class, the
`PackageContent` carries the capture of the last such entry in
entry-iteration order — each later successful capture overwrites the
earlier one (for readme, licence and MCP descriptor both the content
and the path; for icons the icon bytes). -/
theorem parsePackage_lastCaptureWins (xp : String → Option X2JResult) :
    (∀ (pre : List ZipEntry) (e : ZipEntry) (post : List ZipEntry) (s : String)
       (pc : PackageContent), classify e.fileName = EntryClass.readme → e.stream = some s →
       (∀ e2 ∈ post, classify e2.fileName ≠ EntryClass.readme) →
       parsePackage xp (pre ++ e :: post) = .ok pc →
       pc.readmeContent = some s ∧ pc.readmePath = some e.fileName) ∧
    (∀ (pre : List ZipEntry) (e : ZipEntry) (post : List ZipEntry) (s : String)
       (pc : PackageContent), classify e.fileName = EntryClass.icon → e.stream = some s →
       (∀ e2 ∈ post, classify e2.fileName ≠ EntryClass.icon) →
       parsePackage xp (pre ++ e :: post) = .ok pc →
       pc.iconData = some s) ∧
    (∀ (pre : List ZipEntry) (e : ZipEntry) (post : List ZipEntry) (s : String)
       (pc : PackageContent), classify e.fileName = EntryClass.license → e.stream = some s →
       (∀ e2 ∈ post, classify e2.fileName ≠ EntryClass.license) →
       parsePackage xp (pre ++ e :: post) = .ok pc →
       pc.licenseContent = some s ∧ pc.licensePath = some e.fileName) ∧
    (∀ (pre : List ZipEntry) (e : ZipEntry) (post : List ZipEntry) (s : String)
       (pc : PackageContent), classify e.fileName = EntryClass.mcpServer → e.stream = some s →
       (∀ e2 ∈ post, classify e2.fileName ≠ EntryClass.mcpServer) →
       parsePackage xp (pre ++ e :: post) = .ok pc →
       pc.mcpServerContent = some s ∧ pc.mcpServerPath = some e.fileName) := by
  refine ⟨?_, ?_, ?_, ?_⟩
  · intro pre e post s pc hc hs hpost hok
    have hfields := parsePackage_ok_eq hok
    rw [scanEntries_split] at hfields
    have hpres := scanFold_readme_pres xp post (stepEntry xp (List.foldl (stepEntry xp) initScan pre) e) hpost
    have hset : (stepEntry xp (List.foldl (stepEntry xp) initScan pre) e).readmeContent = some s ∧
        (stepEntry xp (List.foldl (stepEntry xp) initScan pre) e).readmePath = some e.fileName := by
      unfold stepEntry
      rw [hc, hs]
      exact ⟨rfl, rfl⟩
    exact ⟨hfields.2.2.2.2.1.trans (hpres.1.trans hset.1),
      hfields.2.2.2.2.2.1.trans (hpres.2.trans hset.2)⟩
  · intro pre e post s pc hc hs hpost hok
    have hfields := parsePackage_ok_eq hok
    rw [scanEntries_split] at hfields
    have hpres := scanFold_icon_pres xp post (stepEntry xp (List.foldl (stepEntry xp) initScan pre) e) hpost
    have hset : (stepEntry xp (List.foldl (stepEntry xp) initScan pre) e).iconData = some s := by
      unfold stepEntry
      rw [hc, hs]
    exact hfields.2.2.2.1.trans (hpres.trans hset)
  · intro pre e post s pc hc hs hpost hok
    have hfields := parsePackage_ok_eq hok
    rw [scanEntries_split] at hfields
    have hpres := scanFold_license_pres xp post (stepEntry xp (List.foldl (stepEntry xp) initScan pre) e) hpost
    have hset : (stepEntry xp (List.foldl (stepEntry xp) initScan pre) e).licenseContent = some s ∧
        (stepEntry xp (List.foldl (stepEntry xp) initScan pre) e).licensePath = some e.fileName := by
      unfold stepEntry
      rw [hc, hs]
      exact ⟨rfl, rfl⟩
    exact ⟨hfields.2.2.2.2.2.2.1.trans (hpres.1.trans hset.1),
      hfields.2.2.2.2.2.2.2.1.trans (hpres.2.trans hset.2)⟩
  · intro pre e post s pc hc hs hpost hok
    have hfields := parsePackage_ok_eq hok
    rw [scanEntries_split] at hfields
    have hpres := scanFold_mcp_pres xp post (stepEntry xp (List.foldl (stepEntry xp) initScan pre) e) hpost
    have hset : (stepEntry xp (List.foldl (stepEntry xp) initScan pre) e).mcpServerContent = some s ∧
        (stepEntry xp (List.foldl (stepEntry xp) initScan pre) e).mcpServerPath = some e.fileName := by
      unfold stepEntry
      rw [hc, hs]
      exact ⟨rfl, rfl⟩
    exact ⟨hfields.2.2.2.2.2.2.2.2.1.trans (hpres.1.trans hset.1),
      hfields.2.2.2.2.2.2.2.2.2.trans (hpres.2.trans hset.2)⟩

theorem parsePackage_lastCaptureWins_witness :
    ∃ pc, parsePackage xpEmpty entriesW = .ok pc ∧
      pc.readmeContent = some "r2" ∧ pc.readmePath = some "docs/readme.txt" ∧
      pc.iconData = some "i2" ∧
      pc.licenseContent = some "l2" ∧ pc.licensePath = some "license.txt" ∧
      pc.mcpServerContent = some "m2" ∧ pc.mcpServerPath = some ".MCP/Server.json" := by
  cases hok : parsePackage xpEmpty entriesW with
  | error e =>
    cases e
    exact absurd hok (by decide)
  | ok pc =>
    have hr := (parsePackage_lastCaptureWins xpEmpty).1
      [⟨"p.nuspec", 1, some "m"⟩, ⟨"README.md", 1, some "r1"⟩, ⟨"icon.png", 1, some "i1"⟩,
       ⟨"LICENSE", 1, some "l1"⟩, ⟨".mcp/server.json", 1, some "m1"⟩]
      ⟨"docs/readme.txt", 1, some "r2"⟩
      [⟨"assets/icon2.png", 1, some "i2"⟩, ⟨"license.txt", 1, some "l2"⟩,
       ⟨".MCP/Server.json", 1, some "m2"⟩] "r2" pc (by decide) rfl (by decide) hok
    have hi := (parsePackage_lastCaptureWins xpEmpty).2.1
      [⟨"p.nuspec", 1, some "m"⟩, ⟨"README.md", 1, some "r1"⟩, ⟨"icon.png", 1, some "i1"⟩,
       ⟨"LICENSE", 1, some "l1"⟩, ⟨".mcp/server.json", 1, some "m1"⟩,
       ⟨"docs/readme.txt", 1, some "r2"⟩]
      ⟨"assets/icon2.png", 1, some "i2"⟩
      [⟨"license.txt", 1, some "l2"⟩, ⟨".MCP/Server.json", 1, some "m2"⟩]
      "i2" pc (by decide) rfl (by decide) hok
    have hl := (parsePackage_lastCaptureWins xpEmpty).2.2.1
      [⟨"p.nuspec", 1, some "m"⟩, ⟨"README.md", 1, some "r1"⟩, ⟨"icon.png", 1, some "i1"⟩,
       ⟨"LICENSE", 1, some "l1"⟩, ⟨".mcp/server.json", 1, some "m1"⟩,
       ⟨"docs/readme.txt", 1, some "r2"⟩, ⟨"assets/icon2.png", 1, some "i2"⟩]
      ⟨"license.txt", 1, some "l2"⟩
      [⟨".MCP/Server.json", 1, some "m2"⟩] "l2" pc (by decide) rfl (by decide) hok
    have hm := (parsePackage_lastCaptureWins xpEmpty).2.2.2
      [⟨"p.nuspec", 1, some "m"⟩, ⟨"README.md", 1, some "r1"⟩, ⟨"icon.png", 1, some "i1"⟩,
       ⟨"LICENSE", 1, some "l1"⟩, ⟨".mcp/server.json", 1, some "m1"⟩,
       ⟨"docs/readme.txt", 1, some "r2"⟩, ⟨"assets/icon2.png", 1, some "i2"⟩,
       ⟨"license.txt", 1, some "l2"⟩]
      ⟨".MCP/Server.json", 1, some "m2"⟩
      [] "m2" pc (by decide) rfl (by decide) hok
    exact ⟨pc, rfl, hr.1, hr.2, hi, hl.1, hl.2, hm.1, hm.2⟩

/-! ## The XML-to-model mapper: dependency grouping and scalar fields -/

/-- `parseNuspec` on a root/metadata wrapper, unfolded to the bind chain
over its fallible sub-parsers (definitional). -/
theorem parseNuspec_mkMetaResult_bind (kids : List (String × List XNode)) :
    parseNuspec (mkMetaResult kids) =
      (parseDependencies (XNode.obj none none kids)).bind (fun dependencies =>
        (parsePackageTypes (XNode.obj none none kids)).bind (fun packageTypes =>
          (parseRepoAttr (XNode.obj none none kids) "url").bind (fun repositoryUrl =>
            (parseRepoAttr (XNode.obj none none kids) "type").bind (fun repositoryType =>
              some
                { id := (getText (kids.lookup "id")).getD "",
                  version := (getText (kids.lookup "version")).getD "",
                  title := getText (kids.lookup "title"),
                  description := getText (kids.lookup "description"),
                  authors := getTextArray (kids.lookup "authors"),
                  owners := getTextArray (kids.lookup "owners"),
                  licenseUrl := getText (kids.lookup "licenseUrl"),
                  license := (parseLicense (XNode.obj none none kids)).1,
                  licenseType := (parseLicense (XNode.obj none none kids)).2,
                  projectUrl := getText (kids.lookup "projectUrl"),
                  repositoryUrl := repositoryUrl,
                  repositoryType := repositoryType,
                  iconUrl := getText (kids.lookup "iconUrl"),
                  tags := getTextArray (kids.lookup "tags"),
                  releaseNotes := getText (kids.lookup "releaseNotes"),
                  copyright := getText (kids.lookup "copyright"),
                  requireLicenseAcceptance := getText (kids.lookup "requireLicenseAcceptance") == some "true",
                  dependencies := dependencies,
                  language := getText (kids.lookup "language"),
                  developmentDependency := getText (kids.lookup "developmentDependency") == some "true",
                  serviceable := getText (kids.lookup "serviceable") == some "true",
                  packageTypes := packageTypes })))) := rfl

theorem mapM_parseDepNode (tf : Option String) : ∀ (as : List (List (String × String))),
    (as.map (fun a => XNode.obj (some a) none [])).mapM (parseDepNode tf) =
      some (as.map (fun a =>
        ⟨attrsGet a "id", attrsGet a "version", tf, attrsGet a "exclude", attrsGet a "include"⟩))
  | [] => rfl
  | a :: rest => by
    simp only [List.map_cons, List.mapM_cons, mapM_parseDepNode tf rest]
    rfl

/-- C5: dependencies declared inside `group` elements each carry their
enclosing group's `targetFramework` attribute (a net6.0 group of one and
a net472 group of two yield exactly 3 records, tagged in order); bare
`dependency` children yield records with `targetFramework` absent on
all; and when both shapes are present the grouped form takes precedence
(the bare children are ignored). -/
theorem parseNuspec_dependencyGrouping :
    (∀ (tf1 tf2 : String) (a1 a2 a3 : List (String × String)),
      (parseNuspec (mkMetaResult [("dependencies",
          [.obj none none [("group",
             [.obj (some [("targetFramework", tf1)]) none
                [("dependency", [.obj (some a1) none []])],
              .obj (some [("targetFramework", tf2)]) none
                [("dependency", [.obj (some a2) none [], .obj (some a3) none []])]])]])])).map
          (fun m => m.dependencies) =
        some [⟨attrsGet a1 "id", attrsGet a1 "version", some tf1, attrsGet a1 "exclude", attrsGet a1 "include"⟩,
              ⟨attrsGet a2 "id", attrsGet a2 "version", some tf2, attrsGet a2 "exclude", attrsGet a2 "include"⟩,
              ⟨attrsGet a3 "id", attrsGet a3 "version", some tf2, attrsGet a3 "exclude", attrsGet a3 "include"⟩]) ∧
    (∀ (as : List (List (String × String))),
      (parseNuspec (mkMetaResult [("dependencies",
          [.obj none none [("dependency", as.map (fun a => XNode.obj (some a) none []))]])])).map
          (fun m => m.dependencies) =
        some (as.map (fun a =>
          ⟨attrsGet a "id", attrsGet a "version", none, attrsGet a "exclude", attrsGet a "include"⟩))) ∧
    (∀ (gs ds : List XNode),
      parseNuspec (mkMetaResult
          [("dependencies", [.obj none none [("group", gs), ("dependency", ds)]])]) =
        parseNuspec (mkMetaResult [("dependencies", [.obj none none [("group", gs)]])])) := by
  refine ⟨fun tf1 tf2 a1 a2 a3 => rfl, fun as => ?_, fun gs ds => rfl⟩
  rw [parseNuspec_mkMetaResult_bind]
  rw [show parseDependencies (.obj none none [("dependencies",
      [.obj none none [("dependency", as.map (fun a => XNode.obj (some a) none []))]])]) =
      (as.map (fun a => XNode.obj (some a) none [])).mapM (parseDepNode none) from rfl]
  rw [mapM_parseDepNode]
  rfl

/-- C6 counterexample: scalar text is *not* trimmed by the mapper — a
title with surrounding whitespace is returned verbatim, not trimmed. -/
theorem parseNuspec_noTrim_cex :
    (parseNuspec (mkMetaResult [("title", [.str " Spaced "])])).map (fun m => m.title) =
      some (some " Spaced ") ∧
    jsTrim " Spaced " = "Spaced" ∧ (" Spaced " : String) ≠ "Spaced" := by
  exact ⟨rfl, by decide, by decide⟩

/-- C6 (amended): for every optional scalar text element the mapper
returns the element's text content verbatim (not trimmed) when the
element is present with nonempty text, and leaves the field absent (not
the empty string) when the element is missing; the boolean-flag
elements are `true` iff the element's text is exactly the literal
`"true"`, defaulting to `false` when absent. -/
theorem parseNuspec_scalarExtraction :
    ∀ (kids : List (String × List XNode)) (md : NuGetPackageMetadata),
      parseNuspec (mkMetaResult kids) = some md →
      (∀ t : String, kids.lookup "title" = some [.str t] → t ≠ "" → md.title = some t) ∧
      (kids.lookup "title" = none → md.title = none) ∧
      (∀ t : String, kids.lookup "description" = some [.str t] → t ≠ "" → md.description = some t) ∧
      (kids.lookup "description" = none → md.description = none) ∧
      (∀ t : String, kids.lookup "copyright" = some [.str t] → t ≠ "" → md.copyright = some t) ∧
      (kids.lookup "copyright" = none → md.copyright = none) ∧
      (∀ t : String, kids.lookup "serviceable" = some [.str t] →
        md.serviceable = decide (t = "true")) ∧
      (kids.lookup "serviceable" = none → md.serviceable = false) ∧
      (∀ t : String, kids.lookup "developmentDependency" = some [.str t] →
        md.developmentDependency = decide (t = "true")) ∧
      (kids.lookup "developmentDependency" = none → md.developmentDependency = false) ∧
      (∀ t : String, kids.lookup "requireLicenseAcceptance" = some [.str t] →
        md.requireLicenseAcceptance = decide (t = "true")) ∧
      (kids.lookup "requireLicenseAcceptance" = none → md.requireLicenseAcceptance = false) := by
  intro kids md h
  rw [parseNuspec_mkMetaResult_bind] at h
  rcases hdd : parseDependencies (XNode.obj none none kids) with _ | deps <;> rw [hdd] at h
  · simp at h
  rcases hpt : parsePackageTypes (XNode.obj none none kids) with _ | pts <;> rw [hpt] at h
  · simp at h
  rcases hru : parseRepoAttr (XNode.obj none none kids) "url" with _ | ru <;> rw [hru] at h
  · simp at h
  rcases hrt : parseRepoAttr (XNode.obj none none kids) "type" with _ | rt <;> rw [hrt] at h
  · simp at h
  simp only [Option.some_bind] at h
  injection h with h
  subst h
  refine ⟨?_, ?_, ?_, ?_, ?_, ?_, ?_, ?_, ?_, ?_, ?_, ?_⟩
  · intro t ht hne
    simp [getText, ht, XNode.truthyB, hne]
  · intro ht
    simp [getText, ht]
  · intro t ht hne
    simp [getText, ht, XNode.truthyB, hne]
  · intro ht
    simp [getText, ht]
  · intro t ht hne
    simp [getText, ht, XNode.truthyB, hne]
  · intro ht
    simp [getText, ht]
  · intro t ht
    by_cases hne : t = ""
    · subst hne
      simp [getText, ht, XNode.truthyB]
    · simp only [getText, ht, XNode.truthyB, hne]
      by_cases h2 : t = "true"
      · subst h2
        simp
      · simp [hne, h2]
  · intro ht
    simp [getText, ht]
  · intro t ht
    by_cases hne : t = ""
    · subst hne
      simp [getText, ht, XNode.truthyB]
    · simp only [getText, ht, XNode.truthyB, hne]
      by_cases h2 : t = "true"
      · subst h2
        simp
      · simp [hne, h2]
  · intro ht
    simp [getText, ht]
  · intro t ht
    by_cases hne : t = ""
    · subst hne
      simp [getText, ht, XNode.truthyB]
    · simp only [getText, ht, XNode.truthyB, hne]
      by_cases h2 : t = "true"
      · subst h2
        simp
      · simp [hne, h2]
  · intro ht
    simp [getText, ht]

theorem parseNuspec_scalarExtraction_witness :
    ∃ md, parseNuspec (mkMetaResult [("title", [.str "T"]), ("serviceable", [.str "maybe"])]) =
        some md ∧
      md.title = some "T" ∧ md.description = none ∧
      md.serviceable = false ∧ md.developmentDependency = false := by
  cases hok : parseNuspec (mkMetaResult [("title", [.str "T"]), ("serviceable", [.str "maybe"])]) with
  | none => exact absurd hok (by decide)
  | some md =>
    have h := parseNuspec_scalarExtraction
      [("title", [.str "T"]), ("serviceable", [.str "maybe"])] md hok
    refine ⟨md, rfl, h.1 "T" rfl (by decide), h.2.2.2.1 rfl, ?_, ?_⟩
    · exact (h.2.2.2.2.2.2.1 "maybe" rfl).trans (by decide)
    · exact h.2.2.2.2.2.2.2.2.2.1 rfl

/-! ## The file tree builder: structural groundwork

The depth-first traversal `flattenFrom` is fuel-bounded; since children
always point strictly forward (`childBound`), any fuel at least
`store.length - i` computes the complete subtree below `i`, the
traversal is unaffected by appending fresh nodes, and rewriting a node
without changing its child list does not change it. -/

theorem flattenFrom_stab (store : List PackageFile) (hcb : childBound store) :
    ∀ (f1 f2 i : Nat), i < store.length → store.length ≤ f1 + i → store.length ≤ f2 + i →
    flattenFrom store f1 i = flattenFrom store f2 i := by
  intro f1
  induction f1 with
  | zero => intro f2 i hi h1 _; omega
  | succ a ih =>
    intro f2 i hi h1 h2
    cases f2 with
    | zero => omega
    | succ b =>
      simp only [flattenFrom]
      cases hnd : store[i]? with
      | none => rfl
      | some nd =>
        congr 1
        apply List.flatMap_congr
        intro j hj
        obtain ⟨hij, hjlen⟩ := hcb i nd hnd j hj
        exact ih b j hjlen (by omega) (by omega)

theorem flattenFrom_append (store : List PackageFile) (nd : PackageFile)
    (hcb : childBound store) :
    ∀ (f i : Nat), i < store.length →
    flattenFrom (store ++ [nd]) f i = flattenFrom store f i := by
  intro f
  induction f with
  | zero => intro i _; rfl
  | succ a ih =>
    intro i hi
    simp only [flattenFrom, List.getElem?_append_left hi]
    cases hnd : store[i]? with
    | none => rfl
    | some x =>
      congr 1
      apply List.flatMap_congr
      intro j hj
      exact ih j (hcb i x hnd j hj).2

theorem flattenFrom_set_same (store : List PackageFile) (k : Nat) {nd nd' : PackageFile}
    (hk : store[k]? = some nd) (hch : nd'.children.getD [] = nd.children.getD []) :
    ∀ (f i : Nat), flattenFrom (store.set k nd') f i = flattenFrom store f i := by
  intro f
  induction f with
  | zero => intro i; rfl
  | succ a ih =>
    intro i
    by_cases hik : i = k
    · subst hik
      have hlen : i < store.length := by
        rcases List.getElem?_eq_some_iff.mp hk with ⟨h, _⟩
        exact h
      simp only [flattenFrom, List.getElem?_set_self hlen, hk, hch]
      congr 1
      apply List.flatMap_congr
      intro j _
      exact ih j
    · simp only [flattenFrom, List.getElem?_set_ne (fun h => hik h.symm)]
      cases store[i]? with
      | none => rfl
      | some x =>
        congr 1
        apply List.flatMap_congr
        intro j _
        exact ih j

theorem flattenFrom_leaf (store : List PackageFile) {i : Nat} {nd : PackageFile}
    (hnd : store[i]? = some nd) (hch : nd.children.getD [] = []) (f : Nat) :
    flattenFrom store (f + 1) i = [i] := by
  simp [flattenFrom, hnd, hch]

theorem pmGet_pmSet (m : List (String × Nat)) (k : String) (v : Nat) (p : String) :
    pmGet (pmSet m k v) p = if p = k then some v else pmGet m p := by
  simp only [pmGet, pmSet, List.lookup]
  by_cases h : p = k
  · simp [h]
  · rw [show (p == k) = false from beq_eq_false_iff_ne.mpr h]
    simp [h]

theorem childBound_append {store : List PackageFile} {nd : PackageFile}
    (hcb : childBound store) (hnd : nd.children.getD [] = []) :
    childBound (store ++ [nd]) := by
  intro k x hk j hj
  rcases Nat.lt_trichotomy k store.length with hlt | heq | hgt
  · rw [List.getElem?_append_left hlt] at hk
    have h2 := hcb k x hk j hj
    refine ⟨h2.1, ?_⟩
    simp only [List.length_append, List.length_cons, List.length_nil]
    omega
  · subst heq
    rw [List.getElem?_concat_length] at hk
    injection hk with hk
    subst hk
    rw [hnd] at hj
    cases hj
  · rw [List.getElem?_eq_none (by simp; omega)] at hk
    cases hk

theorem count_flatMap_add {α : Type} (l : List α) (g1 g2 : α → List Nat) (q idx p : Nat)
    (h : ∀ a ∈ l, (g2 a).count q = (g1 a).count q + (if q = idx then (g1 a).count p else 0)) :
    (l.flatMap g2).count q =
      (l.flatMap g1).count q + (if q = idx then (l.flatMap g1).count p else 0) := by
  induction l with
  | nil => simp
  | cons a t ih =>
    simp only [List.flatMap_cons, List.count_append]
    rw [h a (by simp), ih (fun x hx => h x (by simp [hx]))]
    by_cases hq : q = idx
    · simp only [if_pos hq]
      omega
    · simp [hq]

/-- Appending a fresh leaf and pushing its index into the children of an
existing node `p`: the store-level effect on counting the depth-first
traversal. -/
theorem flattenFrom_pushChild_count (store : List PackageFile) (nd ndp : PackageFile)
    (p : Nat) (store2 : List PackageFile) (hcb : childBound store)
    (hnd : nd.children.getD [] = []) (hp : store[p]? = some ndp)
    (hstore2 : store2 = (store ++ [nd]).set p
        { ndp with children := some ((ndp.children.getD []) ++ [store.length]) }) :
    ∀ (f i q : Nat), i < store.length + 1 → store.length + 1 ≤ f + i →
    (flattenFrom store2 f i).count q =
      (flattenFrom (store ++ [nd]) f i).count q +
        (if q = store.length then (flattenFrom (store ++ [nd]) f i).count p else 0) := by
  have hplen : p < store.length := (List.getElem?_eq_some_iff.mp hp).1
  have hcb1 : childBound (store ++ [nd]) := childBound_append hcb hnd
  have hp1 : (store ++ [nd])[p]? = some ndp := by
    rw [List.getElem?_append_left hplen]; exact hp
  have hpne : p ≠ store.length := by omega
  have hidx1 : (store ++ [nd])[store.length]? = some nd := List.getElem?_concat_length store nd
  have hidx2 : store2[store.length]? = some nd := by
    rw [hstore2, List.getElem?_set_ne hpne]
    exact hidx1
  have hlen2 : (store ++ [nd]).length = store.length + 1 := by simp
  intro f
  induction f with
  | zero => intro i q hi hf; omega
  | succ g ih =>
    intro i q hi hf
    by_cases hiidx : i = store.length
    · subst hiidx
      rw [flattenFrom_leaf store2 hidx2 hnd g, flattenFrom_leaf (store ++ [nd]) hidx1 hnd g]
      have hcnt : List.count p [store.length] = 0 := by
        rw [List.count_singleton]
        simp only [beq_iff_eq]
        rw [if_neg (fun h => hpne h.symm)]
      rw [hcnt]
      simp
    · by_cases hip : i = p
      · subst hip
        have hp2 : store2[i]? =
            some { ndp with children := some ((ndp.children.getD []) ++ [store.length]) } := by
          rw [hstore2]
          exact List.getElem?_set_self (by simp; omega)
        simp only [flattenFrom, hp2, hp1, Option.getD_some, List.flatMap_append,
          List.flatMap_cons, List.flatMap_nil, List.append_nil, List.count_cons,
          List.count_append]
        have hsub : ∀ j ∈ ndp.children.getD [],
            (flattenFrom store2 g j).count q =
              (flattenFrom (store ++ [nd]) g j).count q +
                (if q = store.length then (flattenFrom (store ++ [nd]) g j).count i else 0) := by
          intro j hj
          have hb := hcb i ndp hp j hj
          exact ih j q (by omega) (by omega)
        rw [count_flatMap_add (ndp.children.getD []) (flattenFrom (store ++ [nd]) g)
          (flattenFrom store2 g) q store.length i hsub]
        have hg1 : g = (g - 1) + 1 := by omega
        have hidxflat : flattenFrom store2 g store.length = [store.length] := by
          rw [hg1]
          exact flattenFrom_leaf store2 hidx2 hnd (g - 1)
        rw [hidxflat]
        by_cases hq : q = store.length
        · subst hq
          have hc1 : List.count store.length [store.length] = 1 := List.count_singleton_self _
          have hc2 : (store.length == i) = false := beq_eq_false_iff_ne.mpr (fun h => hpne h.symm)
          have hc3 : (i == store.length) = false := beq_eq_false_iff_ne.mpr hpne
          simp only [if_pos rfl, hc1, List.count_cons, hc2, hc3, if_false, Bool.false_eq_true,
            beq_self_eq_true, if_true]
          omega
        · have hcnt : List.count q [store.length] = 0 := by
            rw [List.count_singleton]
            simp only [beq_iff_eq]
            rw [if_neg (fun h => hq h.symm)]
          rw [hcnt, if_neg hq, if_neg hq]
          omega
      · have hsame : store2[i]? = (store ++ [nd])[i]? := by
          rw [hstore2, List.getElem?_set_ne (fun h => hip h.symm)]
        simp only [flattenFrom, hsame]
        cases hx : (store ++ [nd])[i]? with
        | none =>
          simp only [List.count_cons, List.count_nil]
          by_cases hq : q = store.length
          · rw [if_pos hq]
            have h1 : (i == q) = false := by
              exact beq_eq_false_iff_ne.mpr (fun h => hiidx (h.trans hq))
            have h2 : (i == p) = false := by
              exact beq_eq_false_iff_ne.mpr hip
            simp [h1, h2]
          · rw [if_neg hq]
            simp
        | some x =>
          have hsub : ∀ j ∈ x.children.getD [],
              (flattenFrom store2 g j).count q =
                (flattenFrom (store ++ [nd]) g j).count q +
                  (if q = store.length then (flattenFrom (store ++ [nd]) g j).count p else 0) := by
            intro j hj
            have hb := hcb1 i x hx j hj
            have hj2 : j < store.length + 1 := by
              have h3 := hb.2
              rw [hlen2] at h3
              exact h3
            exact ih j q hj2 (by omega)
          simp only [List.count_cons,
            count_flatMap_add (x.children.getD []) (flattenFrom (store ++ [nd]) g)
              (flattenFrom store2 g) q store.length p hsub]
          by_cases hq : q = store.length
          · simp only [if_pos hq]
            have h3 : (i == p) = false := beq_eq_false_iff_ne.mpr hip
            simp only [h3, Bool.false_eq_true, if_false]
            omega
          · simp [hq]

theorem treePaths_congr {st2 st1 : TreeSt} (ht : st2.tree = st1.tree)
    (hp : ∀ j ∈ st1.tree, (st2.store[j]?).map (fun x => x.path) =
      (st1.store[j]?).map (fun x => x.path)) :
    treePaths st2 = treePaths st1 := by
  rw [treePaths, treePaths, ht]
  exact List.filterMap_congr (fun j hj => hp j hj)

theorem ensureChildren_spec (st : TreeSt) (i : Nat) (hinv : TreeInv st) :
    TreeInv (ensureChildren st i) ∧
    (ensureChildren st i).store.length = st.store.length ∧
    (ensureChildren st i).store.map (fun x => x.path) = st.store.map (fun x => x.path) ∧
    samePaths (ensureChildren st i).store st.store ∧
    (ensureChildren st i).tree = st.tree ∧
    (ensureChildren st i).pathMap = st.pathMap ∧
    treePaths (ensureChildren st i) = treePaths st := by
  obtain ⟨hcb, htb, hfl, hpmS, hpmC⟩ := hinv
  unfold ensureChildren
  cases hnd : st.store[i]? with
  | none =>
    dsimp only
    exact ⟨⟨hcb, htb, hfl, hpmS, hpmC⟩, rfl, rfl,
      fun k nd2 hk => ⟨nd2, hk, rfl, rfl, rfl, rfl⟩, rfl, rfl, rfl⟩
  | some nd =>
    dsimp only
    cases hch : nd.children with
    | some cs =>
      exact ⟨⟨hcb, htb, hfl, hpmS, hpmC⟩, rfl, rfl,
        fun k nd2 hk => ⟨nd2, hk, rfl, rfl, rfl, rfl⟩, rfl, rfl, rfl⟩
    | none =>
      dsimp only
      have hilen : i < st.store.length := (List.getElem?_eq_some_iff.mp hnd).1
      have hcheq : ({ nd with children := some [] } : PackageFile).children.getD [] =
          nd.children.getD [] := by rw [hch]; rfl
      have hsetFlat : ∀ (f j : Nat),
          flattenFrom (st.store.set i { nd with children := some [] }) f j =
            flattenFrom st.store f j :=
        fun f j => flattenFrom_set_same st.store i hnd hcheq f j
      have hgetset : ∀ (k : Nat), (st.store.set i { nd with children := some [] })[k]? =
          if k = i then some { nd with children := some [] } else st.store[k]? := by
        intro k
        by_cases hk : k = i
        · subst hk
          rw [if_pos rfl]
          exact List.getElem?_set_self hilen
        · rw [if_neg hk, List.getElem?_set_ne (fun h => hk h.symm)]
      refine ⟨⟨?_, ?_, ?_, ?_, ?_⟩, by simp, ?_, ?_, rfl, rfl, ?_⟩
      · intro k x hk j hj
        rw [hgetset] at hk
        by_cases hki : k = i
        · rw [if_pos hki] at hk
          injection hk with hk
          subst hk
          rw [hcheq, hch] at hj
          cases hj
        · rw [if_neg hki] at hk
          have h2 := hcb k x hk j hj
          simpa using h2
      · intro j hj
        have h2 := htb j hj
        simpa using h2
      · have h3 : flattenTree { st with store := st.store.set i { nd with children := some [] } } =
            flattenTree st := by
          rw [flattenTree, flattenTree]
          simp only [List.length_set]
          exact List.flatMap_congr (fun j _ => hsetFlat st.store.length j)
        rw [h3]
        simpa using hfl
      · intro p k hk
        obtain ⟨x, hx, hxp⟩ := hpmS p k hk
        rw [hgetset]
        by_cases hki : k = i
        · subst hki
          rw [hx] at hnd
          injection hnd with hnd2
          subst hnd2
          exact ⟨{ x with children := some [] }, by rw [if_pos rfl], hxp⟩
        · exact ⟨x, by rw [if_neg hki]; exact hx, hxp⟩
      · intro k x hk
        rw [hgetset] at hk
        by_cases hki : k = i
        · rw [if_pos hki] at hk
          injection hk with hk
          subst hk
          exact hpmC i nd hnd
        · rw [if_neg hki] at hk
          exact hpmC k x hk
      · apply List.ext_getElem?
        intro k
        rw [List.getElem?_map, List.getElem?_map, hgetset]
        by_cases hki : k = i
        · subst hki
          rw [if_pos rfl, hnd]
          rfl
        · rw [if_neg hki]
      · intro k nd2 hk
        rw [hgetset] at hk
        by_cases hki : k = i
        · rw [if_pos hki] at hk
          injection hk with hk
          subst hk
          subst hki
          exact ⟨nd, hnd, rfl, rfl, rfl, rfl⟩
        · rw [if_neg hki] at hk
          exact ⟨nd2, hk, rfl, rfl, rfl, rfl⟩
      · apply treePaths_congr
        · rfl
        · intro j _
          dsimp only
          rw [hgetset]
          by_cases hji : j = i
          · subst hji
            rw [if_pos rfl, hnd]
            rfl
          · rw [if_neg hji]

/-- Allocating a fresh leaf node and pushing it into a valid container
preserves the tree invariant; the store gains exactly the new node at
the end, the top-level path list gains the node's path exactly when the
container is the top level, and the path map gains the registration. -/
theorem allocPush_spec (st : TreeSt) (c : Option Nat) (nd : PackageFile) (hinv : TreeInv st)
    (hnd : nd.children.getD [] = []) (hc : ∀ p, c = some p → p < st.store.length) :
    TreeInv (allocPush st c nd nd.path) ∧
    (allocPush st c nd nd.path).store.length = st.store.length + 1 ∧
    (allocPush st c nd nd.path).store.map (fun x => x.path) =
      st.store.map (fun x => x.path) ++ [nd.path] ∧
    (∀ (k : Nat) (nd2 : PackageFile), (allocPush st c nd nd.path).store[k]? = some nd2 →
       (∃ nd1, st.store[k]? = some nd1 ∧ nd2.path = nd1.path ∧ nd2.name = nd1.name ∧
          nd2.size = nd1.size ∧ nd2.isDirectory = nd1.isDirectory) ∨ nd2 = nd) ∧
    treePaths (allocPush st c nd nd.path) =
      (match c with | none => treePaths st ++ [nd.path] | some _ => treePaths st) ∧
    (allocPush st c nd nd.path).pathMap = pmSet st.pathMap nd.path st.store.length := by
  obtain ⟨hcb, htb, hfl, hpmS, hpmC⟩ := hinv
  have hlen1 : (st.store ++ [nd]).length = st.store.length + 1 := by simp
  have hidx1 : (st.store ++ [nd])[st.store.length]? = some nd :=
    List.getElem?_concat_length st.store nd
  cases c with
  | none =>
    dsimp only [allocPush, pushInto, pushTop]
    have hflat : flattenTree { store := st.store ++ [nd], tree := st.tree ++ [st.store.length], pathMap := pmSet st.pathMap nd.path st.store.length } = flattenTree st ++ [st.store.length] := by
      rw [flattenTree, flattenTree]
      dsimp only
      rw [hlen1, List.flatMap_append, List.flatMap_cons, List.flatMap_nil, List.append_nil]
      congr 1
      · apply List.flatMap_congr
        intro j hj
        rw [flattenFrom_append st.store nd hcb (st.store.length + 1) j (htb j hj)]
        exact flattenFrom_stab st.store hcb (st.store.length + 1) st.store.length j
          (htb j hj) (by omega) (by omega)
      · exact flattenFrom_leaf (st.store ++ [nd]) hidx1 hnd st.store.length
    refine ⟨⟨?_, ?_, ?_, ?_, ?_⟩, by simp, by simp, ?_, ?_, rfl⟩
    · exact childBound_append hcb hnd
    · intro j hj
      rcases List.mem_append.mp hj with hj | hj
      · have := htb j hj
        simp only [List.length_append, List.length_cons, List.length_nil]
        omega
      · simp only [List.mem_singleton] at hj
        subst hj
        simp only [List.length_append, List.length_cons, List.length_nil]
        omega
    · rw [hflat]
      rw [show (st.store ++ [nd]).length = st.store.length + 1 from by simp, List.range_succ]
      have hperm : List.Perm (flattenTree st) (List.range st.store.length) :=
        Multiset.coe_eq_coe.mp hfl
      exact Multiset.coe_eq_coe.mpr (hperm.append_right [st.store.length])
    · dsimp only
      intro p k hk
      rw [pmGet_pmSet] at hk
      by_cases hp : p = nd.path
      · rw [if_pos hp] at hk
        injection hk with hk
        subst hk
        exact ⟨nd, hidx1, hp.symm⟩
      · rw [if_neg hp] at hk
        obtain ⟨x, hx, hxp⟩ := hpmS p k hk
        have hklen : k < st.store.length := (List.getElem?_eq_some_iff.mp hx).1
        exact ⟨x, by rw [List.getElem?_append_left hklen]; exact hx, hxp⟩
    · dsimp only
      intro k x hk
      rcases Nat.lt_trichotomy k st.store.length with hlt | heq | hgt
      · rw [List.getElem?_append_left hlt] at hk
        obtain ⟨i2, hi2⟩ := hpmC k x hk
        by_cases hp : x.path = nd.path
        · exact ⟨st.store.length, by rw [pmGet_pmSet, if_pos hp]⟩
        · exact ⟨i2, by rw [pmGet_pmSet, if_neg hp]; exact hi2⟩
      · subst heq
        rw [hidx1] at hk
        injection hk with hk
        subst hk
        exact ⟨st.store.length, by rw [pmGet_pmSet, if_pos rfl]⟩
      · rw [List.getElem?_eq_none (by simp; omega)] at hk
        cases hk
    · dsimp only
      intro k nd2 hk
      rcases Nat.lt_trichotomy k st.store.length with hlt | heq | hgt
      · rw [List.getElem?_append_left hlt] at hk
        exact Or.inl ⟨nd2, hk, rfl, rfl, rfl, rfl⟩
      · subst heq
        rw [hidx1] at hk
        injection hk with hk
        exact Or.inr hk.symm
      · rw [List.getElem?_eq_none (by simp; omega)] at hk
        cases hk
    · rw [treePaths, treePaths]
      dsimp only
      rw [List.filterMap_append]
      congr 1
      · apply List.filterMap_congr
        intro j hj
        rw [List.getElem?_append_left (htb j hj)]
      · rw [List.filterMap_cons, List.filterMap_nil, hidx1]
        rfl
  | some p =>
    have hplen : p < st.store.length := hc p rfl
    have hndp : st.store[p]? = some st.store[p] := List.getElem?_eq_getElem hplen
    have hp1 : (st.store ++ [nd])[p]? = some st.store[p] := by
      rw [List.getElem?_append_left hplen]
      exact hndp
    dsimp only [allocPush, pushInto, pushChild]
    rw [hp1]
    dsimp only
    set ndp := st.store[p] with hndpdef
    set ndpNew : PackageFile :=
      { ndp with children := some ((ndp.children.getD []) ++ [st.store.length]) } with hndpNew
    set store2 := (st.store ++ [nd]).set p ndpNew with hstore2
    have hpne : p ≠ st.store.length := by omega
    have hlen2 : store2.length = st.store.length + 1 := by
      rw [hstore2]
      simp
    have hget2 : ∀ (k : Nat), store2[k]? =
        if k = p then some ndpNew else (st.store ++ [nd])[k]? := by
      intro k
      by_cases hk : k = p
      · subst hk
        rw [if_pos rfl, hstore2]
        exact List.getElem?_set_self (by simp; omega)
      · rw [if_neg hk, hstore2, List.getElem?_set_ne (fun h => hk h.symm)]
    have hidx2 : store2[st.store.length]? = some nd := by
      rw [hget2, if_neg (fun h => hpne h.symm)]
      exact hidx1
    have hcb1 : childBound (st.store ++ [nd]) := childBound_append hcb hnd
    refine ⟨⟨?_, ?_, ?_, ?_, ?_⟩, hlen2, ?_, ?_, ?_, rfl⟩
    · dsimp only
      intro k x hk j hj
      rw [hget2] at hk
      by_cases hkp : k = p
      · rw [if_pos hkp] at hk
        injection hk with hk
        subst hk
        subst hkp
        rw [hndpNew] at hj
        simp only [Option.getD_some] at hj
        rcases List.mem_append.mp hj with hj | hj
        · have h2 := hcb k ndp hndp j hj
          omega
        · simp only [List.mem_singleton] at hj
          subst hj
          omega
      · rw [if_neg hkp] at hk
        have h2 := hcb1 k x hk j hj
        rw [hlen1] at h2
        omega
    · dsimp only
      intro j hj
      have h9 := htb j hj
      omega
    · rw [Multiset.ext]
      intro q
      have hsh : flattenTree { store := store2, tree := st.tree, pathMap := pmSet st.pathMap nd.path st.store.length } = st.tree.flatMap (flattenFrom store2 store2.length) := rfl
      rw [hsh, hlen2]
      have hroot : ∀ j ∈ st.tree,
          (flattenFrom store2 (st.store.length + 1) j).count q =
            (flattenFrom st.store st.store.length j).count q +
              (if q = st.store.length then
                (flattenFrom st.store st.store.length j).count p else 0) := by
        intro j hj
        have hjlen := htb j hj
        have h2 := flattenFrom_pushChild_count st.store nd ndp p store2 hcb hnd hndp
          (by rw [hstore2]) (st.store.length + 1) j q (by omega) (by omega)
        have h3 : flattenFrom (st.store ++ [nd]) (st.store.length + 1) j =
            flattenFrom st.store st.store.length j := by
          rw [flattenFrom_append st.store nd hcb (st.store.length + 1) j hjlen]
          exact flattenFrom_stab st.store hcb (st.store.length + 1) st.store.length j
            hjlen (by omega) (by omega)
        rw [h3] at h2
        exact h2
      have hsum := count_flatMap_add st.tree (flattenFrom st.store st.store.length)
        (flattenFrom store2 (st.store.length + 1)) q st.store.length p hroot
      rw [Multiset.coe_count, Multiset.coe_count, hsum]
      have hcnt : ∀ r : Nat, (st.tree.flatMap (flattenFrom st.store st.store.length)).count r =
          (List.range st.store.length).count r := by
        intro r
        have := congrArg (Multiset.count r) hfl
        rw [Multiset.coe_count, Multiset.coe_count] at this
        exact this
      rw [hcnt q, hcnt p, List.range_succ, List.count_append]
      have hcp : (List.range st.store.length).count p = 1 :=
        List.count_eq_one_of_mem (List.nodup_range _) (List.mem_range.mpr hplen)
      by_cases hq : q = st.store.length
      · subst hq
        rw [hcp]
        have hq0 : (List.range st.store.length).count st.store.length = 0 :=
          List.count_eq_zero_of_not_mem (by simp)
        rw [hq0, if_pos rfl]
        simp
      · rw [if_neg hq]
        have hq1 : [st.store.length].count q = 0 := by
          rw [List.count_singleton]
          simp only [beq_iff_eq]
          rw [if_neg (fun h => hq h.symm)]
        rw [hq1]
    · intro pp k hk
      rw [pmGet_pmSet] at hk
      by_cases hp : pp = nd.path
      · rw [if_pos hp] at hk
        injection hk with hk
        subst hk
        exact ⟨nd, hidx2, hp.symm⟩
      · rw [if_neg hp] at hk
        obtain ⟨x, hx, hxp⟩ := hpmS pp k hk
        have hklen : k < st.store.length := (List.getElem?_eq_some_iff.mp hx).1
        rw [hget2]
        by_cases hkp : k = p
        · subst hkp
          rw [hx] at hndp
          injection hndp with hndp2
          refine ⟨ndpNew, by rw [if_pos rfl], ?_⟩
          rw [hndpNew]
          dsimp only
          rw [← hndp2]
          exact hxp
        · exact ⟨x, by rw [if_neg hkp, List.getElem?_append_left hklen]; exact hx, hxp⟩
    · intro k x hk
      rw [hget2] at hk
      by_cases hkp : k = p
      · rw [if_pos hkp] at hk
        injection hk with hk
        subst hk
        obtain ⟨i2, hi2⟩ := hpmC p ndp hndp
        by_cases hp : ndpNew.path = nd.path
        · exact ⟨st.store.length, by rw [pmGet_pmSet, if_pos hp]⟩
        · refine ⟨i2, ?_⟩
          rw [pmGet_pmSet, if_neg hp]
          rw [show ndpNew.path = ndp.path from rfl]
          exact hi2
      · rw [if_neg hkp] at hk
        rcases Nat.lt_trichotomy k st.store.length with hlt | heq | hgt
        · rw [List.getElem?_append_left hlt] at hk
          obtain ⟨i2, hi2⟩ := hpmC k x hk
          by_cases hp : x.path = nd.path
          · exact ⟨st.store.length, by rw [pmGet_pmSet, if_pos hp]⟩
          · exact ⟨i2, by rw [pmGet_pmSet, if_neg hp]; exact hi2⟩
        · subst heq
          rw [hidx1] at hk
          injection hk with hk
          subst hk
          exact ⟨st.store.length, by rw [pmGet_pmSet, if_pos rfl]⟩
        · rw [List.getElem?_eq_none (by simp; omega)] at hk
          cases hk
    · apply List.ext_getElem?
      intro k
      rw [List.getElem?_map, hget2]
      by_cases hkp : k = p
      · rw [if_pos hkp, hkp]
        have hr : (st.store.map (fun x => x.path) ++ [nd.path])[p]? = some ndp.path := by
          rw [List.getElem?_append_left (by simp; omega), List.getElem?_map, hndp]
          rfl
        rw [hr]
        rfl
      · rw [if_neg hkp]
        rcases Nat.lt_trichotomy k st.store.length with hlt | heq | hgt
        · rw [List.getElem?_append_left hlt,
            List.getElem?_append_left (by simp; omega), List.getElem?_map]
        · subst heq
          rw [hidx1]
          have hr : (st.store.map (fun x => x.path) ++ [nd.path])[st.store.length]? =
              some nd.path := by
            rw [List.getElem?_append_right (by simp)]
            simp
          rw [hr]
          rfl
        · rw [List.getElem?_eq_none (by simp; omega),
            List.getElem?_eq_none (by simp; omega)]
          rfl
    · intro k nd2 hk
      rw [hget2] at hk
      by_cases hkp : k = p
      · rw [if_pos hkp] at hk
        injection hk with hk
        subst hk
        subst hkp
        exact Or.inl ⟨ndp, hndp, rfl, rfl, rfl, rfl⟩
      · rw [if_neg hkp] at hk
        rcases Nat.lt_trichotomy k st.store.length with hlt | heq | hgt
        · rw [List.getElem?_append_left hlt] at hk
          exact Or.inl ⟨nd2, hk, rfl, rfl, rfl, rfl⟩
        · subst heq
          rw [hidx1] at hk
          injection hk with hk
          exact Or.inr hk.symm
        · rw [List.getElem?_eq_none (by simp; omega)] at hk
          cases hk
    · apply treePaths_congr
      · rfl
      · intro j hj
        dsimp only
        rw [hget2]
        by_cases hjp : j = p
        · subst hjp
          rw [if_pos rfl, hndp]
          rfl
        · rw [if_neg hjp, List.getElem?_append_left (htb j hj)]

theorem mem_paths_of_getElem? {store : List PackageFile} {i : Nat} {nd : PackageFile}
    (h : store[i]? = some nd) : nd.path ∈ store.map (fun x => x.path) :=
  List.mem_map.mpr ⟨nd, List.mem_iff_getElem?.mpr ⟨i, h⟩, rfl⟩

theorem path_fresh_of_pmGet_none {st : TreeSt} (hinv : TreeInv st) {key : String}
    (hk : pmGet st.pathMap key = none) : key ∉ st.store.map (fun x => x.path) := by
  intro hmem
  obtain ⟨x, hxmem, hxp⟩ := List.mem_map.mp hmem
  obtain ⟨i, hi⟩ := List.mem_iff_getElem?.mp hxmem
  obtain ⟨j, hj⟩ := hinv.2.2.2.2 i x hi
  rw [hxp] at hj
  rw [hk] at hj
  cases hj

/-- Unfolding the ancestor walk one step when the directory key is
already registered. -/
theorem walkAncestors_cons_some (st : TreeSt) (c : Option Nat) (cur seg : String)
    (rest : List String) (idx : Nat)
    (h : pmGet st.pathMap ((if cur = "" then seg else cur ++ "/" ++ seg) ++ "/") = some idx) :
    walkAncestors st c cur (seg :: rest) =
      walkAncestors (ensureChildren st idx) (some idx)
        (if cur = "" then seg else cur ++ "/" ++ seg) rest := by
  rw [walkAncestors]
  dsimp only
  rw [h]

/-- Unfolding the ancestor walk one step when the directory key is
missing: the step is an `allocPush` of a synthetic directory node. -/
theorem walkAncestors_cons_none (st : TreeSt) (c : Option Nat) (cur seg : String)
    (rest : List String)
    (h : pmGet st.pathMap ((if cur = "" then seg else cur ++ "/" ++ seg) ++ "/") = none) :
    walkAncestors st c cur (seg :: rest) =
      walkAncestors
        (allocPush st c { path := (if cur = "" then seg else cur ++ "/" ++ seg) ++ "/", name := seg, size := 0, isDirectory := true, children := some [] } ((if cur = "" then seg else cur ++ "/" ++ seg) ++ "/"))
        (some st.store.length) (if cur = "" then seg else cur ++ "/" ++ seg) rest := by
  rw [walkAncestors]
  dsimp only
  rw [h]
  rfl

/-- The ancestor walk: invariant preservation and the effect on the
store's path list, the node shapes, the top-level paths and path-list
freshness, by induction on the remaining segments. -/
theorem walkAncestors_spec : ∀ (l : List String) (st : TreeSt) (c : Option Nat) (cur : String),
    TreeInv st → (∀ p, c = some p → p < st.store.length) →
    TreeInv (walkAncestors st c cur l).1 ∧
    (∀ p, (walkAncestors st c cur l).2.1 = some p →
      p < (walkAncestors st c cur l).1.store.length) ∧
    ((walkAncestors st c cur l).2.1 = none → c = none ∧ l = []) ∧
    (∃ ks : List String, (walkAncestors st c cur l).1.store.map (fun x => x.path) =
       st.store.map (fun x => x.path) ++ ks ∧ ∀ k ∈ ks, k ∈ walkKeys cur l) ∧
    (∀ k ∈ walkKeys cur l, k ∈ (walkAncestors st c cur l).1.store.map (fun x => x.path)) ∧
    (∀ (k : Nat) (nd2 : PackageFile), (walkAncestors st c cur l).1.store[k]? = some nd2 →
       (∃ nd1, st.store[k]? = some nd1 ∧ nd2.path = nd1.path ∧ nd2.name = nd1.name ∧
          nd2.size = nd1.size ∧ nd2.isDirectory = nd1.isDirectory) ∨
       (nd2.size = 0 ∧ nd2.isDirectory = true ∧ nd2.path ∈ walkKeys cur l)) ∧
    (treePaths (walkAncestors st c cur l).1 = treePaths st ∨
      (c = none ∧ ∃ k0 krest, walkKeys cur l = k0 :: krest ∧
        treePaths (walkAncestors st c cur l).1 = treePaths st ++ [k0])) ∧
    ((st.store.map (fun x => x.path)).Nodup →
      ((walkAncestors st c cur l).1.store.map (fun x => x.path)).Nodup)
  | [], st, c, cur, hinv, hc => by
    refine ⟨hinv, hc, fun h => ⟨h, rfl⟩, ⟨[], by simp [walkAncestors], by simp⟩, by simp [walkKeys], ?_,
      Or.inl rfl, fun h => h⟩
    intro k nd2 hk
    exact Or.inl ⟨nd2, hk, rfl, rfl, rfl, rfl⟩
  | seg :: rest, st, c, cur, hinv, hc => by
    have hwk : walkKeys cur (seg :: rest) =
        ((if cur = "" then seg else cur ++ "/" ++ seg) ++ "/") ::
          walkKeys (if cur = "" then seg else cur ++ "/" ++ seg) rest := rfl
    cases hpm : pmGet st.pathMap ((if cur = "" then seg else cur ++ "/" ++ seg) ++ "/") with
    | some idx =>
      rw [walkAncestors_cons_some st c cur seg rest idx hpm, hwk]
      set newPath := if cur = "" then seg else cur ++ "/" ++ seg with hnewPath
      set key := newPath ++ "/" with hkeydef
      obtain ⟨hinv2, hlen2, hpaths2, hsp2, htree2, hpm2, htp2⟩ :=
        ensureChildren_spec st idx hinv
      have hidxlen : idx < st.store.length := by
        obtain ⟨x, hx, _⟩ := hinv.2.2.2.1 key idx hpm
        exact (List.getElem?_eq_some_iff.mp hx).1
      have hc2 : ∀ p, (some idx : Option Nat) = some p →
          p < (ensureChildren st idx).store.length := by
        intro p hp
        injection hp with hp
        subst hp
        rw [hlen2]
        exact hidxlen
      obtain ⟨ih1, ih2, ih3, ⟨ks, ihks, ihksmem⟩, ihall, ihsp, ihtp, ihnd⟩ :=
        walkAncestors_spec rest (ensureChildren st idx) (some idx) newPath hinv2 hc2
      have hkeymem : key ∈ st.store.map (fun x => x.path) := by
        obtain ⟨x, hx, hxp⟩ := hinv.2.2.2.1 key idx hpm
        rw [← hxp]
        exact mem_paths_of_getElem? hx
      refine ⟨ih1, ih2, ?_,
        ⟨ks, by rw [ihks, hpaths2], fun k hk => List.mem_cons_of_mem _ (ihksmem k hk)⟩,
        ?_, ?_, ?_, ?_⟩
      · intro h
        exact absurd (ih3 h).1 (by simp)
      · intro k hk
        rcases List.mem_cons.mp hk with hk | hk
        · subst hk
          rw [ihks, hpaths2]
          exact List.mem_append_left _ hkeymem
        · exact ihall k hk
      · intro k nd2 hk
        rcases ihsp k nd2 hk with ⟨nd1, hnd1, e1, e2, e3, e4⟩ | ⟨e1, e2, e3⟩
        · rcases hsp2 k nd1 hnd1 with ⟨nd0, hnd0, f1, f2, f3, f4⟩
          exact Or.inl ⟨nd0, hnd0, e1.trans f1, e2.trans f2, e3.trans f3, e4.trans f4⟩
        · exact Or.inr ⟨e1, e2, List.mem_cons_of_mem _ e3⟩
      · rcases ihtp with h | ⟨hnone, _⟩
        · exact Or.inl (h.trans htp2)
        · cases hnone
      · intro hnod
        apply ihnd
        rw [hpaths2]
        exact hnod
    | none =>
      rw [walkAncestors_cons_none st c cur seg rest hpm, hwk]
      set newPath := if cur = "" then seg else cur ++ "/" ++ seg with hnewPath
      set key := newPath ++ "/" with hkeydef
      set dir : PackageFile :=
        { path := key, name := seg, size := 0, isDirectory := true, children := some [] }
        with hdir
      rw [show allocPush st c dir key = allocPush st c dir dir.path from rfl]
      have hnotin : key ∉ st.store.map (fun x => x.path) := path_fresh_of_pmGet_none hinv hpm
      obtain ⟨ap1, ap2, ap3, ap4, ap5, ap6⟩ := allocPush_spec st c dir hinv rfl hc
      have hc3 : ∀ p, (some st.store.length : Option Nat) = some p →
          p < (allocPush st c dir dir.path).store.length := by
        intro p hp
        injection hp with hp
        subst hp
        rw [ap2]
        omega
      obtain ⟨ih1, ih2, ih3, ⟨ks, ihks, ihksmem⟩, ihall, ihsp, ihtp, ihnd⟩ :=
        walkAncestors_spec rest (allocPush st c dir dir.path) (some st.store.length) newPath
          ap1 hc3
      refine ⟨ih1, ih2, ?_, ⟨dir.path :: ks, ?_, ?_⟩, ?_, ?_, ?_, ?_⟩
      · intro h
        exact absurd (ih3 h).1 (by simp)
      · rw [ihks, ap3, List.append_assoc]
        rfl
      · intro k hk
        rcases List.mem_cons.mp hk with hk | hk
        · subst hk
          exact List.mem_cons_self _ _
        · exact List.mem_cons_of_mem _ (ihksmem k hk)
      · intro k hk
        rcases List.mem_cons.mp hk with hk | hk
        · subst hk
          rw [ihks, ap3]
          exact List.mem_append_left _ (List.mem_append_right _ (List.mem_singleton.mpr rfl))
        · exact ihall k hk
      · intro k nd2 hk
        rcases ihsp k nd2 hk with ⟨nd1, hnd1, e1, e2, e3, e4⟩ | ⟨e1, e2, e3⟩
        · rcases ap4 k nd1 hnd1 with ⟨nd0, hnd0, f1, f2, f3, f4⟩ | hdirEq
          · exact Or.inl ⟨nd0, hnd0, e1.trans f1, e2.trans f2, e3.trans f3, e4.trans f4⟩
          · subst hdirEq
            exact Or.inr ⟨e3, e4, by rw [e1]; exact List.mem_cons_self _ _⟩
        · exact Or.inr ⟨e1, e2, List.mem_cons_of_mem _ e3⟩
      · rcases ihtp with h | ⟨hnone, _⟩
        · cases c with
          | none =>
            refine Or.inr ⟨rfl, key, walkKeys newPath rest, rfl, ?_⟩
            rw [h, ap5]
          | some p =>
            refine Or.inl ?_
            rw [h, ap5]
        · cases hnone
      · intro hnod
        apply ihnd
        rw [ap3]
        rw [List.nodup_append]
        refine ⟨hnod, List.nodup_singleton _, ?_⟩
        intro a ha hb
        rw [List.mem_singleton] at hb
        subst hb
        exact hnotin ha


theorem strAppend_assoc (a b c : String) : a ++ b ++ c = a ++ (b ++ c) := by
  apply String.ext
  simp

theorem segs_ne_empty (p : String) : ∀ s ∈ segs p, s ≠ "" := by
  intro s hs
  rw [segs] at hs
  have h2 := List.mem_filter.mp hs
  simpa using h2.2

theorem joinSegs_append_singleton (s : String) :
    ∀ (pre : List String), pre ≠ [] → joinSegs (pre ++ [s]) = joinSegs pre ++ "/" ++ s
  | [], h => absurd rfl h
  | [x], _ => rfl
  | x :: y :: pre', _ => by
    rw [show ((x :: y :: pre') ++ [s]) = x :: ((y :: pre') ++ [s]) from rfl]
    rw [show joinSegs (x :: ((y :: pre') ++ [s])) =
        x ++ "/" ++ joinSegs ((y :: pre') ++ [s]) from ?side]
    case side =>
      rw [show ((y :: pre') ++ [s]) = y :: (pre' ++ [s]) from rfl]
      rfl
    rw [joinSegs_append_singleton s (y :: pre') (by simp)]
    rw [show joinSegs (x :: y :: pre') = x ++ "/" ++ joinSegs (y :: pre') from rfl]
    apply String.ext
    simp

theorem joinSegs_concat_ne_empty (pre : List String) (s : String) (hs : s ≠ "") :
    joinSegs (pre ++ [s]) ≠ "" := by
  cases pre with
  | nil => exact hs
  | cons x pre' =>
    rw [joinSegs_append_singleton s (x :: pre') (by simp)]
    intro h
    have h2 := congrArg String.data h
    simp [String.data_append] at h2

theorem walkKeys_join : ∀ (l : List String) (pre : List String),
    (∀ s ∈ l, s ≠ "") → (pre = [] ∨ joinSegs pre ≠ "") →
    walkKeys (joinSegs pre) l =
      (List.range l.length).map (fun i => dirKeyOf (pre ++ l.take (i + 1)))
  | [], pre, _, _ => by simp [walkKeys]
  | s :: rest, pre, hl, hpre => by
    have hs : s ≠ "" := hl s (List.mem_cons_self _ _)
    have hnp : (if joinSegs pre = "" then s else joinSegs pre ++ "/" ++ s) =
        joinSegs (pre ++ [s]) := by
      rcases hpre with h | h
      · subst h
        rw [if_pos (show joinSegs ([] : List String) = "" from rfl)]
        rfl
      · have hpne : pre ≠ [] := by
          intro h2
          subst h2
          exact h rfl
        rw [if_neg h, joinSegs_append_singleton s pre hpne]
    rw [show walkKeys (joinSegs pre) (s :: rest) =
        ((if joinSegs pre = "" then s else joinSegs pre ++ "/" ++ s) ++ "/") ::
          walkKeys (if joinSegs pre = "" then s else joinSegs pre ++ "/" ++ s) rest from rfl]
    rw [hnp]
    rw [walkKeys_join rest (pre ++ [s]) (fun t ht => hl t (List.mem_cons_of_mem _ ht))
      (Or.inr (joinSegs_concat_ne_empty pre s hs))]
    rw [List.length_cons, List.range_succ_eq_map, List.map_cons, List.map_map]
    congr 1
    apply List.map_congr_left
    intro i _
    simp only [Function.comp]
    rw [List.append_assoc]
    rfl

theorem walkKeys_nil (l : List String) (hl : ∀ s ∈ l, s ≠ "") :
    walkKeys "" l = (List.range l.length).map (fun i => dirKeyOf (l.take (i + 1))) := by
  have h := walkKeys_join l [] hl (Or.inl rfl)
  rw [show joinSegs [] = "" from rfl] at h
  simpa using h

/-- The keys probed by the ancestor walk over a path's leading segments
are exactly the directories implied by the path. -/
theorem walkKeys_dropLast_eq_impliedDirs (p : String) :
    walkKeys "" ((segs p).dropLast) = impliedDirs p := by
  have hl : ∀ s ∈ (segs p).dropLast, s ≠ "" :=
    fun s hs => segs_ne_empty p s (List.dropLast_subset _ hs)
  rw [walkKeys_nil _ hl, impliedDirs]
  cases hn : (segs p).length with
  | zero =>
    have h0 : segs p = [] := List.length_eq_zero.mp hn
    rw [h0]
    rfl
  | succ m =>
    have hdl : (segs p).dropLast.length = m := by
      rw [List.length_dropLast, hn]
      omega
    rw [hdl, List.range_succ_eq_map,
      show ((0 :: (List.range m).map Nat.succ).drop 1) = (List.range m).map Nat.succ from rfl,
      List.map_map]
    apply List.map_congr_left
    intro i hi
    have hi2 : i < m := List.mem_range.mp hi
    simp only [Function.comp]
    rw [show dirKeyOf ((segs p).take (Nat.succ i)) = dirKeyOf ((segs p).take (i + 1)) from rfl]
    congr 1
    rw [List.dropLast_eq_take, List.take_take, hn]
    congr 1
    omega


/-- The per-file insertion is an ancestor walk followed by an
`allocPush` of the file node into the resulting container. -/
theorem addFile_eq (st : TreeSt) (f : PackageFile) :
    addFile st f =
      if (segs f.path).length = 1 then allocPush st none f f.path
      else
        allocPush (walkAncestors st none "" (segs f.path).dropLast).1
          (walkAncestors st none "" (segs f.path).dropLast).2.1 f f.path := by
  rw [addFile]
  split
  · rfl
  · rfl

theorem impliedDirs_of_length_one {p : String} (h : (segs p).length = 1) :
    impliedDirs p = [] := by
  rw [impliedDirs, h]
  rfl

theorem impliedDirs_head {p k0 : String} {krest : List String}
    (h : impliedDirs p = k0 :: krest) :
    2 ≤ (segs p).length ∧ k0 = dirKeyOf ((segs p).take 1) := by
  rw [impliedDirs] at h
  cases hn : (segs p).length with
  | zero =>
    rw [hn] at h
    cases h
  | succ m =>
    cases m with
    | zero =>
      rw [hn] at h
      cases h
    | succ m2 =>
      rw [hn] at h
      refine ⟨by omega, ?_⟩
      simp only [List.range_succ_eq_map, List.map_cons, List.drop_one, List.tail_cons] at h
      exact (List.cons_eq_cons.mp h).1.symm

/-- The per-file insertion: invariant preservation, the exact effect on
the store's path list (implied directories then the file), membership
of all implied directories, node shapes, the top-level path extension
and path-list freshness. -/
theorem addFile_spec (st : TreeSt) (f : PackageFile) (hinv : TreeInv st)
    (hch : f.children = none) :
    TreeInv (addFile st f) ∧
    (∃ ks : List String, (addFile st f).store.map (fun x => x.path) =
       st.store.map (fun x => x.path) ++ ks ++ [f.path] ∧ ∀ k ∈ ks, k ∈ impliedDirs f.path) ∧
    (∀ k ∈ impliedDirs f.path, k ∈ (addFile st f).store.map (fun x => x.path)) ∧
    f.path ∈ (addFile st f).store.map (fun x => x.path) ∧
    (∀ (k : Nat) (nd2 : PackageFile), (addFile st f).store[k]? = some nd2 →
       (∃ nd1, st.store[k]? = some nd1 ∧ nd2.path = nd1.path ∧ nd2.name = nd1.name ∧
          nd2.size = nd1.size ∧ nd2.isDirectory = nd1.isDirectory) ∨ nd2 = f ∨
       (nd2.size = 0 ∧ nd2.isDirectory = true ∧ nd2.path ∈ impliedDirs f.path)) ∧
    (∃ t, treePaths (addFile st f) = treePaths st ++ t ∧
       (((segs f.path).length ≤ 1 ∧ t = [f.path]) ∨
        (2 ≤ (segs f.path).length ∧ t = [dirKeyOf ((segs f.path).take 1)]) ∨
        t = [])) ∧
    ((st.store.map (fun x => x.path)).Nodup → f.path ∉ st.store.map (fun x => x.path) →
      f.path ∉ impliedDirs f.path → ((addFile st f).store.map (fun x => x.path)).Nodup) := by
  have hchd : f.children.getD [] = [] := by rw [hch]; rfl
  by_cases h1 : (segs f.path).length = 1
  · rw [addFile_eq st f, if_pos h1]
    have himp : impliedDirs f.path = [] := impliedDirs_of_length_one h1
    obtain ⟨ap1, ap2, ap3, ap4, ap5, ap6⟩ :=
      allocPush_spec st none f hinv hchd (fun p hp => Option.noConfusion hp)
    refine ⟨ap1, ⟨[], by simpa using ap3, by simp⟩, by simp [himp], ?_, ?_, ?_, ?_⟩
    · rw [ap3]
      exact List.mem_append_right _ (List.mem_singleton.mpr rfl)
    · intro k nd2 hk
      rcases ap4 k nd2 hk with h | h
      · exact Or.inl h
      · exact Or.inr (Or.inl h)
    · refine ⟨[f.path], ?_, Or.inl ⟨by omega, rfl⟩⟩
      rw [ap5]
    · intro hnod hfp _
      rw [ap3, List.nodup_append]
      refine ⟨hnod, List.nodup_singleton _, ?_⟩
      intro a ha hb
      rw [List.mem_singleton] at hb
      subst hb
      exact hfp ha
  · rw [addFile_eq st f, if_neg h1]
    obtain ⟨w1, w2, w3, ⟨ks, wks, wksmem⟩, wall, wsp, wtp, wnd⟩ :=
      walkAncestors_spec ((segs f.path).dropLast) st none "" hinv
        (fun p hp => Option.noConfusion hp)
    have hbridge := walkKeys_dropLast_eq_impliedDirs f.path
    rw [hbridge] at wksmem wall wsp wtp
    obtain ⟨ap1, ap2, ap3, ap4, ap5, ap6⟩ :=
      allocPush_spec (walkAncestors st none "" ((segs f.path).dropLast)).1
        (walkAncestors st none "" ((segs f.path).dropLast)).2.1 f w1 hchd w2
    refine ⟨ap1, ⟨ks, by rw [ap3, wks], wksmem⟩, ?_, ?_, ?_, ?_, ?_⟩
    · intro k hk
      rw [ap3]
      exact List.mem_append_left _ (wall k hk)
    · rw [ap3]
      exact List.mem_append_right _ (List.mem_singleton.mpr rfl)
    · intro k nd2 hk
      rcases ap4 k nd2 hk with ⟨nd1, hnd1, e1, e2, e3, e4⟩ | hf
      · rcases wsp k nd1 hnd1 with ⟨nd0, hnd0, f1, f2, f3, f4⟩ | ⟨f1, f2, f3⟩
        · exact Or.inl ⟨nd0, hnd0, e1.trans f1, e2.trans f2, e3.trans f3, e4.trans f4⟩
        · exact Or.inr (Or.inr ⟨e3.trans f1, e4.trans f2, by rw [e1]; exact f3⟩)
      · exact Or.inr (Or.inl hf)
    · cases hW : (walkAncestors st none "" ((segs f.path).dropLast)).2.1 with
      | none =>
        obtain ⟨-, hdl⟩ := w3 hW
        have himpnil : impliedDirs f.path = [] := by
          rw [← hbridge, hdl]
          rfl
        have htpW : treePaths (walkAncestors st none "" ((segs f.path).dropLast)).1 =
            treePaths st := by
          rcases wtp with h | ⟨-, k0, krest, hk, -⟩
          · exact h
          · rw [himpnil] at hk
            cases hk
        obtain ⟨-, -, -, -, ap5n, -⟩ :=
          allocPush_spec (walkAncestors st none "" ((segs f.path).dropLast)).1 none f w1 hchd
            (fun p hp => Option.noConfusion hp)
        have hshort : (segs f.path).length ≤ 1 := by
          have h2 := congrArg List.length hdl
          rw [List.length_dropLast] at h2
          simp at h2
          omega
        refine ⟨[f.path], ?_, Or.inl ⟨hshort, rfl⟩⟩
        rw [ap5n]
        dsimp only
        rw [htpW]
      | some q =>
        have hcq : ∀ p, (some q : Option Nat) = some p →
            p < (walkAncestors st none "" ((segs f.path).dropLast)).1.store.length := by
          intro p hp
          injection hp with hp
          subst hp
          exact w2 q hW
        obtain ⟨-, -, -, -, ap5s, -⟩ :=
          allocPush_spec (walkAncestors st none "" ((segs f.path).dropLast)).1 (some q) f w1
            hchd hcq
        have htpres : treePaths (allocPush
            (walkAncestors st none "" ((segs f.path).dropLast)).1 (some q) f f.path) =
            treePaths (walkAncestors st none "" ((segs f.path).dropLast)).1 := by
          rw [ap5s]
        rcases wtp with h | ⟨-, k0, krest, hk, htp⟩
        · exact ⟨[], by rw [htpres, h, List.append_nil], Or.inr (Or.inr rfl)⟩
        · obtain ⟨hlen2, hk0⟩ := impliedDirs_head hk
          refine ⟨[k0], by rw [htpres, htp], Or.inr (Or.inl ⟨hlen2, by rw [hk0]⟩)⟩
    · intro hnod hfst hfimp
      rw [ap3, List.nodup_append]
      refine ⟨wnd hnod, List.nodup_singleton _, ?_⟩
      intro a ha hb
      rw [List.mem_singleton] at hb
      subst hb
      rw [wks] at ha
      rcases List.mem_append.mp ha with ha | ha
      · exact hfst ha
      · exact hfimp (wksmem _ ha)


theorem joinSegs_ne_empty_list : ∀ (l : List String), l ≠ [] → (∀ s ∈ l, s ≠ "") →
    joinSegs l ≠ ""
  | [], h, _ => absurd rfl h
  | [x], _, hs => hs x (by simp)
  | x :: y :: t, _, _ => by
    rw [show joinSegs (x :: y :: t) = x ++ "/" ++ joinSegs (y :: t) from rfl]
    intro h
    have h2 := congrArg String.data h
    simp [String.data_append] at h2

theorem joinSegs_split : ∀ (l : List String) (i : Nat), 0 < i → i < l.length →
    joinSegs l = joinSegs (l.take i) ++ "/" ++ joinSegs (l.drop i)
  | [], _, _, hi => by simp at hi
  | _ :: _, 0, h0, _ => absurd h0 (by omega)
  | x :: t, 1, _, hi => by
    cases t with
    | nil => simp at hi
    | cons y t2 => rfl
  | x :: t, j + 2, _, hi => by
    have hlen : j + 1 < t.length := by
      simp only [List.length_cons] at hi
      omega
    have ht : t ≠ [] := by
      intro h
      subst h
      simp at hlen
    obtain ⟨y, t2, rfl⟩ : ∃ y t2, t = y :: t2 := by
      cases t with
      | nil => exact absurd rfl ht
      | cons y t2 => exact ⟨y, t2, rfl⟩
    rw [show joinSegs (x :: y :: t2) = x ++ "/" ++ joinSegs (y :: t2) from rfl]
    rw [joinSegs_split (y :: t2) (j + 1) (by omega) hlen]
    rw [show (x :: y :: t2).take (j + 2) = x :: (y :: t2).take (j + 1) from rfl]
    rw [show (x :: y :: t2).drop (j + 2) = (y :: t2).drop (j + 1) from rfl]
    rw [show joinSegs (x :: (y :: t2).take (j + 1)) =
        x ++ "/" ++ joinSegs ((y :: t2).take (j + 1)) from by
      rw [show (y :: t2).take (j + 1) = y :: t2.take j from rfl]
      rfl]
    apply String.ext
    simp

/-- Every directory implied by a canonical path sorts strictly before
the path itself (it is a proper prefix). -/
theorem impliedDirs_strict {p : String} (hc : canonicalPath p) :
    ∀ d ∈ impliedDirs p, charLe d.data p.data = true ∧ d ≠ p := by
  intro d hd
  rw [impliedDirs] at hd
  obtain ⟨i, hi, hdi⟩ := List.mem_map.mp hd
  have hrange : 1 ≤ i ∧ i < (segs p).length := by
    cases hn : (segs p).length with
    | zero =>
      rw [hn] at hi
      cases hi
    | succ m =>
      rw [hn, List.range_succ_eq_map, List.drop_one, List.tail_cons] at hi
      obtain ⟨j, hj, rfl⟩ := List.mem_map.mp hi
      have := List.mem_range.mp hj
      omega
  have hsplit := joinSegs_split (segs p) i hrange.1 hrange.2
  have hdropne : (segs p).drop i ≠ [] := by
    intro h
    have h2 := congrArg List.length h
    simp at h2
    omega
  have hdropstr : joinSegs ((segs p).drop i) ≠ "" :=
    joinSegs_ne_empty_list _ hdropne (fun s hs => segs_ne_empty p s (List.mem_of_mem_drop hs))
  have key : ∃ rest : List Char, rest ≠ [] ∧ p.data = d.data ++ rest := by
    rw [← hdi]
    rcases hc with hcp | hcp
    · refine ⟨(joinSegs ((segs p).drop i)).data, ?_, ?_⟩
      · intro h
        exact hdropstr (String.ext h)
      · conv_lhs => rw [hcp, hsplit]
        rw [show dirKeyOf ((segs p).take i) = joinSegs ((segs p).take i) ++ "/" from rfl]
        simp [String.data_append]
    · refine ⟨(joinSegs ((segs p).drop i)).data ++ ('/' : Char) :: [], by simp, ?_⟩
      conv_lhs => rw [hcp, hsplit]
      rw [show dirKeyOf ((segs p).take i) = joinSegs ((segs p).take i) ++ "/" from rfl]
      simp [String.data_append]
  obtain ⟨rest, hrne, hkey⟩ := key
  refine ⟨?_, ?_⟩
  · rw [hkey]
    exact charLe_of_append _ _
  · intro h
    rw [h] at hkey
    exact charLe_append_ne p.data hrne hkey.symm


theorem tts_prefix : ∀ (l : List Char), ∃ t, l = tts l ++ t
  | [] => ⟨[], rfl⟩
  | c :: l => by
    by_cases h : c = '/'
    · subst h
      refine ⟨l, ?_⟩
      rw [show tts ('/' :: l) = ['/'] from by rw [tts, if_pos rfl]]
      rfl
    · obtain ⟨t, ht⟩ := tts_prefix l
      refine ⟨t, ?_⟩
      rw [show tts (c :: l) = c :: tts l from by rw [tts, if_neg h]]
      rw [List.cons_append, ← ht]

theorem charLe_tts_self (l : List Char) : charLe (tts l) l = true := by
  obtain ⟨t, ht⟩ := tts_prefix l
  have h2 := charLe_of_append (tts l) t
  rw [← ht] at h2
  exact h2

theorem tts_mono : ∀ {a b : List Char}, charLe a b = true → charLe (tts a) (tts b) = true
  | [], _, _ => by rw [show tts [] = [] from rfl, charLe]
  | c :: as, [], h => by simp [charLe] at h
  | c :: as, d :: bs, h => by
    rw [charLe] at h
    by_cases hcd : c < d
    · have hlhs : tts (c :: as) = c :: (if c = '/' then [] else tts as) := by
        by_cases hc : c = '/'
        · subst hc
          rw [tts, if_pos rfl, if_pos rfl]
        · rw [tts, if_neg hc, if_neg hc]
      have hrhs : tts (d :: bs) = d :: (if d = '/' then [] else tts bs) := by
        by_cases hdq : d = '/'
        · subst hdq
          rw [tts, if_pos rfl, if_pos rfl]
        · rw [tts, if_neg hdq, if_neg hdq]
      rw [hlhs, hrhs, charLe, if_pos hcd]
    · rw [if_neg hcd] at h
      by_cases hdc : d < c
      · rw [if_pos hdc] at h
        cases h
      · rw [if_neg hdc] at h
        have hcd2 : c = d := le_antisymm (not_lt.mp hdc) (not_lt.mp hcd)
        subst hcd2
        by_cases hc : c = '/'
        · subst hc
          rw [show tts ('/' :: as) = ['/'] from by rw [tts, if_pos rfl],
            show tts ('/' :: bs) = ['/'] from by rw [tts, if_pos rfl]]
          decide
        · rw [show tts (c :: as) = c :: tts as from by rw [tts, if_neg hc],
            show tts (c :: bs) = c :: tts bs from by rw [tts, if_neg hc]]
          rw [charLe, if_neg hcd, if_neg hdc]
          exact tts_mono h

theorem splitOnCharAux_no_sep (sep : Char) : ∀ (l acc : List Char), (∀ c ∈ acc, c ≠ sep) →
    ∀ piece ∈ splitOnCharAux sep l acc, ∀ c ∈ piece, c ≠ sep
  | [], acc, hacc => by
    intro piece hp c hcp
    rw [splitOnCharAux] at hp
    rw [List.mem_singleton] at hp
    subst hp
    exact hacc c (List.mem_reverse.mp hcp)
  | a :: l, acc, hacc => by
    intro piece hp c hcp
    rw [splitOnCharAux] at hp
    by_cases ha : a = sep
    · rw [if_pos ha] at hp
      rcases List.mem_cons.mp hp with hp | hp
      · subst hp
        exact hacc c (List.mem_reverse.mp hcp)
      · exact splitOnCharAux_no_sep sep l [] (by simp) piece hp c hcp
    · rw [if_neg ha] at hp
      refine splitOnCharAux_no_sep sep l (a :: acc) ?_ piece hp c hcp
      intro x hx
      rcases List.mem_cons.mp hx with hx | hx
      · subst hx
        exact ha
      · exact hacc x hx

theorem segs_no_slash (p : String) : ∀ s ∈ segs p, ∀ c ∈ s.data, c ≠ '/' := by
  intro s hs
  rw [segs] at hs
  have hs2 := (List.mem_filter.mp hs).1
  rw [splitOnChar] at hs2
  obtain ⟨piece, hpmem, hpe⟩ := List.mem_map.mp hs2
  intro c hc
  have hdata : s.data = piece := by rw [← hpe]
  exact splitOnCharAux_no_sep '/' p.data [] (by simp) piece hpmem c (hdata ▸ hc)

theorem tts_no_slash : ∀ (l : List Char), (∀ c ∈ l, c ≠ '/') → tts l = l
  | [], _ => rfl
  | c :: t, h => by
    rw [tts, if_neg (h c (by simp))]
    rw [tts_no_slash t (fun x hx => h x (List.mem_cons_of_mem _ hx))]

theorem tts_no_slash_append : ∀ (l t : List Char), (∀ c ∈ l, c ≠ '/') →
    tts (l ++ '/' :: t) = l ++ ['/']
  | [], t, _ => by
    rw [List.nil_append, List.nil_append, tts, if_pos rfl]
  | c :: l, t, h => by
    rw [List.cons_append, tts, if_neg (h c (by simp))]
    rw [tts_no_slash_append l t (fun x hx => h x (List.mem_cons_of_mem _ hx))]
    rfl


theorem slash_data : ("/" : String).data = ['/'] := rfl

/-- For a canonical path with at most one segment, the whole path is its
own leading portion. -/
theorem canonical_top_short {p : String} (hc : canonicalPath p)
    (hlen : (segs p).length ≤ 1) : p = ⟨tts p.data⟩ := by
  cases hse : segs p with
  | nil =>
    rcases hc with hcp | hcp
    · rw [hse] at hcp
      rw [show joinSegs ([] : List String) = "" from rfl] at hcp
      subst hcp
      rfl
    · rw [hse] at hcp
      rw [show joinSegs ([] : List String) ++ "/" = "/" from rfl] at hcp
      subst hcp
      rfl
  | cons s t =>
    have ht : t = [] := by
      rw [hse] at hlen
      simp only [List.length_cons] at hlen
      exact List.length_eq_zero.mp (by omega)
    subst ht
    have hns : ∀ c ∈ s.data, c ≠ '/' := segs_no_slash p s (by rw [hse]; simp)
    rcases hc with hcp | hcp
    · rw [hse, show joinSegs [s] = s from rfl] at hcp
      rw [hcp, tts_no_slash s.data hns]
    · rw [hse, show joinSegs [s] = s from rfl] at hcp
      rw [hcp]
      rw [show (s ++ "/").data = s.data ++ '/' :: [] from by rw [String.data_append]]
      rw [tts_no_slash_append s.data [] hns]
      apply String.ext
      rw [String.data_append]

/-- For a canonical path with at least two segments, the first implied
directory key is the path's leading portion through its first slash. -/
theorem canonical_top_long {p : String} (hc : canonicalPath p)
    (hlen : 2 ≤ (segs p).length) : dirKeyOf ((segs p).take 1) = ⟨tts p.data⟩ := by
  obtain ⟨s, y, t2, hse⟩ : ∃ s y t2, segs p = s :: y :: t2 := by
    cases h1 : segs p with
    | nil =>
      rw [h1] at hlen
      simp at hlen
    | cons s t =>
      cases t with
      | nil =>
        rw [h1] at hlen
        simp at hlen
      | cons y t2 => exact ⟨s, y, t2, rfl⟩
  have hns : ∀ c ∈ s.data, c ≠ '/' := segs_no_slash p s (by rw [hse]; simp)
  have hjoin : joinSegs (s :: y :: t2) = s ++ "/" ++ joinSegs (y :: t2) := rfl
  obtain ⟨rest, hpd⟩ : ∃ rest : List Char, p.data = s.data ++ '/' :: rest := by
    rcases hc with hcp | hcp
    · refine ⟨(joinSegs (y :: t2)).data, ?_⟩
      rw [hcp, hse, hjoin]
      simp [String.data_append, slash_data]
    · refine ⟨(joinSegs (y :: t2)).data ++ ['/'], ?_⟩
      rw [hcp, hse, hjoin]
      simp [String.data_append, slash_data]
  rw [hse, show (s :: y :: t2).take 1 = [s] from rfl]
  rw [hpd, tts_no_slash_append s.data rest hns]
  rw [show dirKeyOf [s] = s ++ "/" from rfl]
  apply String.ext
  rw [String.data_append]


theorem TreeInv_init : TreeInv { store := [], tree := [], pathMap := [] } := by
  refine ⟨?_, ?_, rfl, ?_, ?_⟩
  · intro k nd hk
    exact Option.noConfusion hk
  · intro j hj
    cases hj
  · intro p i hp
    exact Option.noConfusion hp
  · intro k nd hk
    exact Option.noConfusion hk

theorem range_filterMap_paths (store : List PackageFile) :
    (List.range store.length).filterMap (fun i => (store[i]?).map (fun nd => nd.path)) =
      store.map (fun x => x.path) := by
  induction store using List.reverseRecOn with
  | nil => rfl
  | append_singleton l x ih =>
    rw [show (l ++ [x]).length = l.length + 1 from by simp]
    rw [List.range_succ, List.filterMap_append, List.map_append]
    congr 1
    · rw [← ih]
      apply List.filterMap_congr
      intro i hi
      rw [List.getElem?_append_left (List.mem_range.mp hi)]
    · rw [List.filterMap_cons, List.filterMap_nil, List.getElem?_concat_length]
      rfl

/-- Under the tree invariant, the depth-first flattening of the tree
collects every stored node's path exactly once. -/
theorem flattenPaths_perm_store (st : TreeSt) (hinv : TreeInv st) :
    (flattenPaths st).Perm (st.store.map (fun x => x.path)) := by
  have hperm : (flattenTree st).Perm (List.range st.store.length) :=
    Multiset.coe_eq_coe.mp hinv.2.2.1
  have h2 := hperm.filterMap (fun i => (st.store[i]?).map (fun nd => nd.path))
  rw [range_filterMap_paths st.store] at h2
  exact h2

/-- The `buildFileTree` fold: invariant preservation, the exact
membership of the store's path list (old paths, input paths and implied
directories), and the shape of every stored node. -/
theorem buildFold_spec : ∀ (files : List PackageFile) (st : TreeSt),
    TreeInv st → (∀ f ∈ files, f.children = none) →
    TreeInv (files.foldl addFile st) ∧
    (∀ p, p ∈ (files.foldl addFile st).store.map (fun x => x.path) ↔
       (p ∈ st.store.map (fun x => x.path) ∨ (∃ f ∈ files, p = f.path) ∨
        (∃ f ∈ files, p ∈ impliedDirs f.path))) ∧
    (∀ (k : Nat) (nd2 : PackageFile), (files.foldl addFile st).store[k]? = some nd2 →
       ((∃ nd1, st.store[k]? = some nd1 ∧ nd2.path = nd1.path ∧ nd2.name = nd1.name ∧
          nd2.size = nd1.size ∧ nd2.isDirectory = nd1.isDirectory) ∨
        (∃ f ∈ files, nd2.path = f.path ∧ nd2.name = f.name ∧ nd2.size = f.size ∧
          nd2.isDirectory = f.isDirectory) ∨
        (nd2.size = 0 ∧ nd2.isDirectory = true ∧ ∃ f ∈ files, nd2.path ∈ impliedDirs f.path)))
  | [], st, hinv, _ => by
    refine ⟨hinv, ?_, ?_⟩
    · intro p
      simp
    · intro k nd2 hk
      exact Or.inl ⟨nd2, hk, rfl, rfl, rfl, rfl⟩
  | f :: rest, st, hinv, hch => by
    rw [List.foldl_cons]
    obtain ⟨a1, ⟨ks, aks, aksmem⟩, a3, a4, a5, -, -⟩ :=
      addFile_spec st f hinv (hch f (by simp))
    obtain ⟨ih1, ih2, ih3⟩ :=
      buildFold_spec rest (addFile st f) a1 (fun g hg => hch g (List.mem_cons_of_mem _ hg))
    refine ⟨ih1, ?_, ?_⟩
    · intro p
      rw [ih2 p]
      constructor
      · rintro (hp | hp | hp)
        · rw [aks] at hp
          rcases List.mem_append.mp hp with hp | hp
          · rcases List.mem_append.mp hp with hp | hp
            · exact Or.inl hp
            · exact Or.inr (Or.inr ⟨f, by simp, aksmem p hp⟩)
          · rw [List.mem_singleton] at hp
            exact Or.inr (Or.inl ⟨f, by simp, hp⟩)
        · obtain ⟨g, hg, hpg⟩ := hp
          exact Or.inr (Or.inl ⟨g, List.mem_cons_of_mem _ hg, hpg⟩)
        · obtain ⟨g, hg, hpg⟩ := hp
          exact Or.inr (Or.inr ⟨g, List.mem_cons_of_mem _ hg, hpg⟩)
      · rintro (hp | hp | hp)
        · refine Or.inl ?_
          rw [aks]
          exact List.mem_append_left _ (List.mem_append_left _ hp)
        · obtain ⟨g, hg, hpg⟩ := hp
          rcases List.mem_cons.mp hg with hg | hg
          · subst hg
            subst hpg
            exact Or.inl a4
          · exact Or.inr (Or.inl ⟨g, hg, hpg⟩)
        · obtain ⟨g, hg, hpg⟩ := hp
          rcases List.mem_cons.mp hg with hg | hg
          · subst hg
            exact Or.inl (a3 p hpg)
          · exact Or.inr (Or.inr ⟨g, hg, hpg⟩)
    · intro k nd2 hk
      rcases ih3 k nd2 hk with h | h | h
      · obtain ⟨nd1, hnd1, e1, e2, e3, e4⟩ := h
        rcases a5 k nd1 hnd1 with ⟨nd0, hnd0, f1, f2, f3, f4⟩ | hf | ⟨f1, f2, f3⟩
        · exact Or.inl ⟨nd0, hnd0, e1.trans f1, e2.trans f2, e3.trans f3, e4.trans f4⟩
        · rw [hf] at e1 e2 e3 e4
          exact Or.inr (Or.inl ⟨f, by simp, e1, e2, e3, e4⟩)
        · exact Or.inr (Or.inr ⟨e3.trans f1, e4.trans f2, f, by simp, by rw [e1]; exact f3⟩)
      · obtain ⟨g, hg, hpg⟩ := h
        exact Or.inr (Or.inl ⟨g, List.mem_cons_of_mem _ hg, hpg⟩)
      · obtain ⟨e1, e2, g, hg, hpg⟩ := h
        exact Or.inr (Or.inr ⟨e1, e2, g, List.mem_cons_of_mem _ hg, hpg⟩)

/-- For sorted, canonical, duplicate-free input the fold keeps the
store's path list duplicate-free. -/
theorem buildFold_nodup : ∀ (files : List PackageFile) (st : TreeSt),
    TreeInv st → (∀ f ∈ files, f.children = none) →
    (∀ f ∈ files, canonicalPath f.path) →
    List.Pairwise pathLe files →
    (files.map (fun f => f.path)).Nodup →
    (∀ f ∈ files, f.path ∉ st.store.map (fun x => x.path)) →
    (st.store.map (fun x => x.path)).Nodup →
    ((files.foldl addFile st).store.map (fun x => x.path)).Nodup
  | [], _, _, _, _, _, _, _, hnod => hnod
  | f :: rest, st, hinv, hch, hcan, hsort, hinnod, hfresh, hnod => by
    rw [List.foldl_cons]
    obtain ⟨a1, ⟨ks, aks, aksmem⟩, -, -, -, -, a7⟩ :=
      addFile_spec st f hinv (hch f (by simp))
    have hcanf : canonicalPath f.path := hcan f (by simp)
    have hfimp : f.path ∉ impliedDirs f.path :=
      fun h => (impliedDirs_strict hcanf f.path h).2 rfl
    have hnod1 : ((addFile st f).store.map (fun x => x.path)).Nodup :=
      a7 hnod (hfresh f (by simp)) hfimp
    have hsr := List.pairwise_cons.mp hsort
    rw [List.map_cons, List.nodup_cons] at hinnod
    refine buildFold_nodup rest (addFile st f) a1
      (fun g hg => hch g (List.mem_cons_of_mem _ hg))
      (fun g hg => hcan g (List.mem_cons_of_mem _ hg))
      hsr.2 hinnod.2 ?_ hnod1
    intro g hg
    rw [aks]
    intro hmem
    rcases List.mem_append.mp hmem with hm | hm
    · rcases List.mem_append.mp hm with hm | hm
      · exact hfresh g (List.mem_cons_of_mem _ hg) hm
      · have hd := impliedDirs_strict hcanf g.path (aksmem _ hm)
        have hle : pathLe f g := hsr.1 g hg
        have heq : g.path.data = f.path.data := charLe_antisymm hd.1 hle
        exact hd.2 (String.ext heq)
    · rw [List.mem_singleton] at hm
      have hmem2 : f.path ∈ rest.map (fun x => x.path) := by
        rw [← hm]
        exact List.mem_map_of_mem _ hg
      exact hinnod.1 hmem2

/-- For sorted canonical input the fold keeps the top-level sibling
paths in nondecreasing lexicographic order. -/
theorem buildFold_sorted : ∀ (files : List PackageFile) (st : TreeSt),
    TreeInv st → (∀ f ∈ files, f.children = none) →
    (∀ f ∈ files, canonicalPath f.path) →
    List.Pairwise pathLe files →
    List.Pairwise (fun a b => charLe a.data b.data = true) (treePaths st) →
    (∀ u ∈ treePaths st, ∀ f ∈ files, charLe u.data (tts f.path.data) = true) →
    List.Pairwise (fun a b => charLe a.data b.data = true) (treePaths (files.foldl addFile st))
  | [], _, _, _, _, _, hsorted, _ => hsorted
  | f :: rest, st, hinv, hch, hcan, hsort, hsorted, hbound => by
    rw [List.foldl_cons]
    obtain ⟨a1, -, -, -, -, ⟨t, htp, hts⟩, -⟩ := addFile_spec st f hinv (hch f (by simp))
    have hcanf := hcan f (by simp)
    have htval : ∀ u ∈ t, u = (⟨tts f.path.data⟩ : String) := by
      rcases hts with ⟨hlen, ht⟩ | ⟨hlen, ht⟩ | ht
      · subst ht
        intro u hu
        rw [List.mem_singleton] at hu
        subst hu
        exact canonical_top_short hcanf hlen
      · subst ht
        intro u hu
        rw [List.mem_singleton] at hu
        subst hu
        exact canonical_top_long hcanf hlen
      · subst ht
        intro u hu
        cases hu
    have hsr := List.pairwise_cons.mp hsort
    refine buildFold_sorted rest (addFile st f) a1
      (fun g hg => hch g (List.mem_cons_of_mem _ hg))
      (fun g hg => hcan g (List.mem_cons_of_mem _ hg))
      hsr.2 ?_ ?_
    · rw [htp, List.pairwise_append]
      refine ⟨hsorted, ?_, ?_⟩
      · rcases hts with ⟨-, ht⟩ | ⟨-, ht⟩ | ht <;> subst ht <;> simp
      · intro u hu v hv
        rw [htval v hv]
        exact hbound u hu f (by simp)
    · intro u hu g hg
      rw [htp] at hu
      rcases List.mem_append.mp hu with hu | hu
      · exact hbound u hu g (List.mem_cons_of_mem _ hg)
      · rw [htval u hu]
        exact tts_mono (hsr.1 g hg)

/-- Two sorted lists that are permutations of each other and have
duplicate-free paths are equal. -/
theorem sorted_nodup_perm_eq : ∀ {l1 l2 : List PackageFile},
    l1.Perm l2 → List.Pairwise pathLe l1 → List.Pairwise pathLe l2 →
    (l1.map (fun f => f.path)).Nodup → l1 = l2
  | [], _, hp, _, _, _ => hp.nil_eq
  | a :: t1, l2, hp, hs1, hs2, hnd1 => by
    have ha2 : a ∈ l2 := hp.mem_iff.mp (by simp)
    obtain ⟨b, t2, rfl⟩ : ∃ b t2, l2 = b :: t2 := by
      cases l2 with
      | nil => exact absurd ha2 (by simp)
      | cons b t2 => exact ⟨b, t2, rfl⟩
    have hb1 : b ∈ a :: t1 := hp.symm.mem_iff.mp (by simp)
    have hab : a = b := by
      by_cases h : a = b
      · exact h
      · have ha2b : a ∈ t2 := by
          rcases List.mem_cons.mp ha2 with h2 | h2
          · exact absurd h2 h
          · exact h2
        have hb1b : b ∈ t1 := by
          rcases List.mem_cons.mp hb1 with h2 | h2
          · exact absurd h2.symm h
          · exact h2
        have h1 : pathLe a b := (List.pairwise_cons.mp hs1).1 b hb1b
        have h2 : pathLe b a := (List.pairwise_cons.mp hs2).1 a ha2b
        have hpe : a.path = b.path := String.ext (charLe_antisymm h1 h2)
        rw [List.map_cons, List.nodup_cons] at hnd1
        have hmem : a.path ∈ t1.map (fun f => f.path) := by
          rw [hpe]
          exact List.mem_map_of_mem _ hb1b
        exact absurd hmem hnd1.1
    subst hab
    have ht : t1.Perm t2 := hp.cons_inv
    rw [List.map_cons, List.nodup_cons] at hnd1
    rw [sorted_nodup_perm_eq ht (List.pairwise_cons.mp hs1).2 (List.pairwise_cons.mp hs2).2
      hnd1.2]


/-- C2 counterexample: a duplicate-free flat path list for which the
flattened tree does *not* contain each implied directory exactly once:
with entries `/a/b` and `a/`, the directory node `a/` (implied by
`/a/b` after empty segments are dropped, and also an explicit input
path keyed differently in the path map) appears twice. -/
theorem buildFileTree_roundTrip_cex :
    (([(⟨"/a/b", "b", 1, false, none⟩ : PackageFile),
       ⟨"a/", "a", 0, true, none⟩].map (fun f => f.path)).Nodup) ∧
    (flattenPaths (buildFileTree
        [⟨"/a/b", "b", 1, false, none⟩, ⟨"a/", "a", 0, true, none⟩])).count "a/" = 2 := by
  constructor
  · decide
  · decide

/-- C2 (amended): for canonical slash-separated paths (no leading slash,
no empty internal segment, at most a trailing slash) with no duplicates,
flattening the built tree depth-first yields exactly the input path set
closed under directory implication, each path exactly once; and every
stored node whose path is not an input path is a synthetic directory of
size 0. -/
theorem buildFileTree_roundTrip (files : List PackageFile)
    (hcan : ∀ f ∈ files, canonicalPath f.path)
    (hch : ∀ f ∈ files, f.children = none)
    (hnd : (files.map (fun f => f.path)).Nodup) :
    (flattenPaths (buildFileTree files)).Perm (closurePaths files) ∧
    (∀ (k : Nat) (nd : PackageFile), (buildFileTree files).store[k]? = some nd →
       nd.path ∉ files.map (fun f => f.path) → nd.size = 0 ∧ nd.isDirectory = true) := by
  have hbt : buildFileTree files =
      (files.insertionSort pathLe).foldl addFile { store := [], tree := [], pathMap := [] } :=
    rfl
  have hperm := List.perm_insertionSort pathLe files
  have hmemsf : ∀ f : PackageFile, f ∈ files.insertionSort pathLe ↔ f ∈ files :=
    fun f => hperm.mem_iff
  have hchS : ∀ f ∈ files.insertionSort pathLe, f.children = none :=
    fun f hf => hch f ((hmemsf f).mp hf)
  have hcanS : ∀ f ∈ files.insertionSort pathLe, canonicalPath f.path :=
    fun f hf => hcan f ((hmemsf f).mp hf)
  have hsorted : List.Pairwise pathLe (files.insertionSort pathLe) :=
    List.sorted_insertionSort pathLe files
  have hndS : ((files.insertionSort pathLe).map (fun f => f.path)).Nodup :=
    ((hperm.map (fun f => f.path)).nodup_iff).mpr hnd
  obtain ⟨t1, t2, t3⟩ := buildFold_spec (files.insertionSort pathLe)
    { store := [], tree := [], pathMap := [] } TreeInv_init hchS
  have hnodS : (((files.insertionSort pathLe).foldl addFile
      { store := [], tree := [], pathMap := [] }).store.map (fun x => x.path)).Nodup :=
    buildFold_nodup _ _ TreeInv_init hchS hcanS hsorted hndS (by simp) (by simp)
  constructor
  · rw [hbt]
    refine (flattenPaths_perm_store _ t1).trans ?_
    refine (List.perm_ext_iff_of_nodup hnodS (List.nodup_dedup _)).mpr ?_
    intro p
    rw [t2 p]
    rw [List.mem_dedup, List.mem_append]
    constructor
    · rintro (hp | ⟨g, hg, hpg⟩ | ⟨g, hg, hpg⟩)
      · simp at hp
      · exact Or.inl (List.mem_map.mpr ⟨g, (hmemsf g).mp hg, hpg.symm⟩)
      · exact Or.inr (List.mem_flatMap.mpr ⟨g, (hmemsf g).mp hg, hpg⟩)
    · rintro (hp | hp)
      · obtain ⟨g, hg, hpg⟩ := List.mem_map.mp hp
        exact Or.inr (Or.inl ⟨g, (hmemsf g).mpr hg, hpg.symm⟩)
      · obtain ⟨g, hg, hpg⟩ := List.mem_flatMap.mp hp
        exact Or.inr (Or.inr ⟨g, (hmemsf g).mpr hg, hpg⟩)
  · intro k nd hk hnotin
    rw [hbt] at hk
    rcases t3 k nd hk with ⟨nd1, hnd1, -⟩ | ⟨g, hg, e1, -, -, -⟩ | ⟨e1, e2, -⟩
    · exact absurd hnd1 (by simp)
    · refine absurd ?_ hnotin
      rw [e1]
      exact List.mem_map_of_mem _ ((hmemsf g).mp hg)
    · exact ⟨e1, e2⟩

theorem buildFileTree_roundTrip_witness :
    (∀ f ∈ ([⟨"lib/net6.0/Foo.dll", "Foo.dll", 10, false, none⟩] : List PackageFile),
        canonicalPath f.path) ∧
    (flattenPaths (buildFileTree
        [(⟨"lib/net6.0/Foo.dll", "Foo.dll", 10, false, none⟩ : PackageFile)])).Perm
      (closurePaths [⟨"lib/net6.0/Foo.dll", "Foo.dll", 10, false, none⟩]) :=
  ⟨by decide,
   (buildFileTree_roundTrip [⟨"lib/net6.0/Foo.dll", "Foo.dll", 10, false, none⟩]
      (by decide) (by decide) (by decide)).1⟩

/-- C7 counterexample: `buildFileTree` is not deterministic under
permutation when two entries share a path (the later one wins the path
map, changing node contents), and for non-canonical paths the top-level
siblings are not in lexicographic path order (`"a/"` sorts after
`"a!"`, yet the synthetic directory for `/a/b` is created first because
the comparator sorts `/a/b` before `a!`). -/
theorem buildFileTree_order_cex :
    (buildFileTree [(⟨"a", "a", 1, false, none⟩ : PackageFile), ⟨"a", "a", 2, false, none⟩] ≠
       buildFileTree [⟨"a", "a", 2, false, none⟩, ⟨"a", "a", 1, false, none⟩]) ∧
    treePaths (buildFileTree [(⟨"/a/b", "b", 1, false, none⟩ : PackageFile),
        ⟨"a!", "x", 1, false, none⟩]) = ["a/", "a!"] ∧
    charLe "a/".data "a!".data = false := by
  refine ⟨by decide, by decide, by decide⟩

/-- C7 (amended): the flat list is sorted by path before building, and
(i) for canonical input paths the returned top-level siblings are in
lexicographic path order; (ii) for duplicate-free path lists the output
is deterministic — permutations of the input yield the same tree. -/
theorem buildFileTree_sorted_deterministic :
    (∀ (files : List PackageFile), (∀ f ∈ files, canonicalPath f.path) →
       (∀ f ∈ files, f.children = none) →
       List.Pairwise (fun a b => charLe a.data b.data = true)
         (treePaths (buildFileTree files))) ∧
    (∀ (l1 l2 : List PackageFile), l1.Perm l2 → (l1.map (fun f => f.path)).Nodup →
       buildFileTree l1 = buildFileTree l2) := by
  constructor
  · intro files hcan hch
    have hperm := List.perm_insertionSort pathLe files
    refine buildFold_sorted (files.insertionSort pathLe) _ TreeInv_init
      (fun f hf => hch f (hperm.mem_iff.mp hf))
      (fun f hf => hcan f (hperm.mem_iff.mp hf))
      (List.sorted_insertionSort pathLe files) ?_ ?_
    · rw [show treePaths { store := [], tree := [], pathMap := [] } = [] from rfl]
      exact List.Pairwise.nil
    · intro u hu
      rw [show treePaths { store := [], tree := [], pathMap := [] } = [] from rfl] at hu
      cases hu
  · intro l1 l2 hp hnd
    have hs1 : List.Pairwise pathLe (l1.insertionSort pathLe) :=
      List.sorted_insertionSort pathLe l1
    have hs2 : List.Pairwise pathLe (l2.insertionSort pathLe) :=
      List.sorted_insertionSort pathLe l2
    have hpp : (l1.insertionSort pathLe).Perm (l2.insertionSort pathLe) :=
      (List.perm_insertionSort pathLe l1).trans
        (hp.trans (List.perm_insertionSort pathLe l2).symm)
    have hnd1 : ((l1.insertionSort pathLe).map (fun f => f.path)).Nodup :=
      ((List.perm_insertionSort pathLe l1).map (fun f => f.path)).nodup_iff.mpr hnd
    rw [buildFileTree, buildFileTree, sorted_nodup_perm_eq hpp hs1 hs2 hnd1]

theorem buildFileTree_sorted_deterministic_witness :
    List.Pairwise (fun a b => charLe a.data b.data = true)
      (treePaths (buildFileTree [(⟨"b/x", "x", 1, false, none⟩ : PackageFile),
        ⟨"a.txt", "a.txt", 2, false, none⟩])) ∧
    buildFileTree [(⟨"a", "a", 1, false, none⟩ : PackageFile), ⟨"b", "b", 2, false, none⟩] =
      buildFileTree [⟨"b", "b", 2, false, none⟩, ⟨"a", "a", 1, false, none⟩] :=
  ⟨buildFileTree_sorted_deterministic.1 _ (by decide) (by decide),
   buildFileTree_sorted_deterministic.2 _ _ (List.Perm.swap _ _ _) (by decide)⟩


theorem stepEntry_metadata_congr (xp : String → Option X2JResult) (st1 st0 : ScanState)
    (e : ZipEntry) (h : st1.metadata = st0.metadata) :
    (stepEntry xp st1 e).metadata = (stepEntry xp st0 e).metadata := by
  unfold stepEntry
  cases hc : classify e.fileName <;> (try cases hs : e.stream) <;> dsimp only <;> rw [h]

theorem scanFold_metadata_congr (xp : String → Option X2JResult) : ∀ (post : List ZipEntry)
    (st1 st0 : ScanState), st1.metadata = st0.metadata →
    (List.foldl (stepEntry xp) st1 post).metadata = (List.foldl (stepEntry xp) st0 post).metadata
  | [], _, _, h => h
  | e :: rest, st1, st0, h => by
    rw [List.foldl_cons, List.foldl_cons]
    exact scanFold_metadata_congr xp rest _ _ (stepEntry_metadata_congr xp st1 st0 e h)

theorem stepEntry_classContent (xp : String → Option X2JResult) (st : ScanState) (e : ZipEntry)
    (c : EntryClass) (h : classify e.fileName = c → e.stream = none) :
    classContentS c (stepEntry xp st e) = classContentS c st := by
  unfold stepEntry
  cases c <;> cases hc : classify e.fileName <;> (try cases hs : e.stream) <;>
    first
      | rfl
      | (rw [h hc] at hs; cases hs)

theorem scanFold_classContent (xp : String → Option X2JResult) (c : EntryClass) :
    ∀ (entries : List ZipEntry) (st : ScanState),
    (∀ e ∈ entries, classify e.fileName = c → e.stream = none) →
    classContentS c (List.foldl (stepEntry xp) st entries) = classContentS c st
  | [], _, _ => rfl
  | e :: rest, st, h => by
    rw [List.foldl_cons]
    exact (scanFold_classContent xp c rest _ (fun e2 he2 => h e2 (by simp [he2]))).trans
      (stepEntry_classContent xp st e c (h e (by simp)))

theorem scanFold_files (xp : String → Option X2JResult) : ∀ (entries : List ZipEntry)
    (st : ScanState),
    (List.foldl (stepEntry xp) st entries).files = st.files ++ entries.map toPackageFile
  | [], _ => by simp
  | e :: rest, st => by
    rw [List.foldl_cons, scanFold_files xp rest, stepEntry_files, List.map_cons,
      List.append_assoc]
    rfl

/-- Every input file's path appears in the depth-first flattening of the
built tree. -/
theorem mem_flattenPaths_buildFileTree (files : List PackageFile)
    (hch : ∀ f ∈ files, f.children = none) (f : PackageFile) (hf : f ∈ files) :
    f.path ∈ flattenPaths (buildFileTree files) := by
  have hbt : buildFileTree files =
      (files.insertionSort pathLe).foldl addFile { store := [], tree := [], pathMap := [] } :=
    rfl
  obtain ⟨t1, t2, -⟩ := buildFold_spec (files.insertionSort pathLe)
    { store := [], tree := [], pathMap := [] } TreeInv_init
    (fun g hg => hch g ((List.perm_insertionSort pathLe files).mem_iff.mp hg))
  have hmem : f.path ∈ ((files.insertionSort pathLe).foldl addFile
      { store := [], tree := [], pathMap := [] }).store.map (fun x => x.path) :=
    (t2 f.path).mpr (Or.inr (Or.inl
      ⟨f, (List.perm_insertionSort pathLe files).mem_iff.mpr hf, rfl⟩))
  rw [hbt]
  exact (flattenPaths_perm_store _ t1).mem_iff.mpr hmem

/-- C10: a stream-open failure on a classified non-manifest entry
(icon, readme, license or MCP descriptor) does not fail the parse: the
outcome (success or missing-metadata) is exactly that of the archive
without the entry; and whenever the parse succeeds, the corresponding
optional content field is absent when no same-class entry streamed
successfully, while the failing entry's `FileEntry` still appears in
the returned file tree. -/
theorem parsePackage_classifiedStreamFailure (xp : String → Option X2JResult)
    (pre : List ZipEntry) (e : ZipEntry) (post : List ZipEntry) (c : EntryClass)
    (hc : classify e.fileName = c)
    (hcls : c = EntryClass.icon ∨ c = EntryClass.readme ∨ c = EntryClass.license ∨
      c = EntryClass.mcpServer)
    (hs : e.stream = none) :
    (parsePackage xp (pre ++ e :: post)).isOk = (parsePackage xp (pre ++ post)).isOk ∧
    (∀ pc, parsePackage xp (pre ++ e :: post) = .ok pc →
      ((∀ e2 ∈ pre ++ e :: post, classify e2.fileName = c → e2.stream = none) →
        classContent c pc = none) ∧
      e.fileName ∈ flattenPaths pc.files) := by
  have hcnuspec : classify e.fileName ≠ EntryClass.nuspec := by
    rw [hc]
    rcases hcls with h | h | h | h <;> subst h <;> decide
  constructor
  · have hmeta : (scanEntries xp (pre ++ e :: post)).metadata =
        (scanEntries xp (pre ++ post)).metadata := by
      rw [scanEntries_split]
      rw [show scanEntries xp (pre ++ post) =
          List.foldl (stepEntry xp) (List.foldl (stepEntry xp) initScan pre) post from by
        simp [scanEntries, List.foldl_append]]
      exact scanFold_metadata_congr xp post _ _ (stepEntry_metadata_pres xp _ e hcnuspec)
    simp only [parsePackage]
    rw [hmeta]
    cases (scanEntries xp (pre ++ post)).metadata <;> rfl
  · intro pc hok
    have hfields := parsePackage_ok_eq hok
    constructor
    · intro hall
      have hcc : classContent c pc = classContentS c (scanEntries xp (pre ++ e :: post)) := by
        rcases hcls with h | h | h | h <;> subst h
        · exact hfields.2.2.2.1
        · exact hfields.2.2.2.2.1
        · exact hfields.2.2.2.2.2.2.1
        · exact hfields.2.2.2.2.2.2.2.2.1
      rw [hcc]
      rw [show scanEntries xp (pre ++ e :: post) =
          List.foldl (stepEntry xp) initScan (pre ++ e :: post) from rfl]
      rw [scanFold_classContent xp c (pre ++ e :: post) initScan hall]
      rcases hcls with h | h | h | h <;> subst h <;> rfl
    · have hfiles : (scanEntries xp (pre ++ e :: post)).files =
          (pre ++ e :: post).map toPackageFile := by
        rw [show scanEntries xp (pre ++ e :: post) =
            List.foldl (stepEntry xp) initScan (pre ++ e :: post) from rfl]
        rw [scanFold_files]
        rfl
      rw [hfields.2.1, hfiles]
      have hmem : toPackageFile e ∈ (pre ++ e :: post).map toPackageFile :=
        List.mem_map_of_mem _ (by simp)
      have hchm : ∀ f ∈ (pre ++ e :: post).map toPackageFile, f.children = none := by
        intro f hf
        obtain ⟨e2, -, rfl⟩ := List.mem_map.mp hf
        rfl
      exact mem_flattenPaths_buildFileTree _ hchm (toPackageFile e) hmem

theorem parsePackage_classifiedStreamFailure_witness :
    ((parsePackage xpEmpty [⟨"p.nuspec", 1, some "m"⟩, ⟨"icon.png", 5, none⟩]).isOk =
      (parsePackage xpEmpty [⟨"p.nuspec", 1, some "m"⟩]).isOk) ∧
    (∀ pc, parsePackage xpEmpty [⟨"p.nuspec", 1, some "m"⟩, ⟨"icon.png", 5, none⟩] = .ok pc →
      ((∀ e2 ∈ [⟨"p.nuspec", 1, some "m"⟩, (⟨"icon.png", 5, none⟩ : ZipEntry)],
          classify e2.fileName = EntryClass.icon → e2.stream = none) →
        classContent EntryClass.icon pc = none) ∧
      "icon.png" ∈ flattenPaths pc.files) :=
  parsePackage_classifiedStreamFailure xpEmpty [⟨"p.nuspec", 1, some "m"⟩]
    ⟨"icon.png", 5, none⟩ [] EntryClass.icon (by decide) (Or.inl rfl) rfl


/-- C4 counterexample: the discriminating predicates are not pairwise
exclusive.  `readme.nuspec` matches both the manifest suffix rule and
the readme rule; `license.nuspec` both manifest and license;
`icons/readme.png` both icon and readme; `icon/license.png` both icon
and license. -/
theorem classification_exclusivity_cex :
    (strEndsWith "readme.nuspec" ".nuspec" = true ∧ isReadmeFile "readme.nuspec" = true) ∧
    (strEndsWith "license.nuspec" ".nuspec" = true ∧ isLicenseFile "license.nuspec" = true) ∧
    (isIconFile "icons/readme.png" = true ∧ isReadmeFile "icons/readme.png" = true) ∧
    (isIconFile "icon/license.png" = true ∧ isLicenseFile "icon/license.png" = true) := by
  refine ⟨⟨?_, ?_⟩, ⟨?_, ?_⟩, ⟨?_, ?_⟩, ⟨?_, ?_⟩⟩ <;> decide

theorem readme_license_exclusive (f : String) :
    ¬(isReadmeFile f = true ∧ isLicenseFile f = true) := by
  rintro ⟨hr, hl⟩
  simp only [isReadmeFile, Bool.or_eq_true] at hr
  simp only [isLicenseFile, Bool.or_eq_true] at hl
  rcases hr with hr | hr
  · have hmem : strLower (basename f) ∈ readmeNames := by simpa using hr
    simp only [readmeNames, List.mem_cons, List.not_mem_nil, or_false] at hmem
    rcases hmem with h1 | h1 | h1 | h1 <;> rw [h1] at hl <;> revert hl <;> decide
  · obtain ⟨t, hbn2, -⟩ := isPre_head (show isPre ('r' :: "eadme.".data)
      (strLower (basename f)).data = true from hr)
    rcases hl with (hl | hl) | hl
    · have hmem : strLower (basename f) ∈ licenseNames := by simpa using hl
      simp only [licenseNames, List.mem_cons, List.not_mem_nil, or_false] at hmem
      rcases hmem with h1 | h1 | h1 | h1 | h1 | h1 | h1 | h1 | h1 | h1 | h1 <;>
        rw [h1] at hbn2 <;>
        · have h3 := congrArg List.head? hbn2
          rw [show ('r' :: t).head? = some 'r' from rfl] at h3
          revert h3
          decide
    · obtain ⟨t2, hbn3, -⟩ := isPre_head (show isPre ('l' :: "icense.".data)
        (strLower (basename f)).data = true from hl)
      rw [hbn2] at hbn3
      injection hbn3 with h4
      exact absurd h4 (by decide)
    · obtain ⟨t2, hbn3, -⟩ := isPre_head (show isPre ('l' :: "icence.".data)
        (strLower (basename f)).data = true from hl)
      rw [hbn2] at hbn3
      injection hbn3 with h4
      exact absurd h4 (by decide)

theorem nuspec_not_icon (f : String) (h : strEndsWith f ".nuspec" = true) :
    isIconFile f = false := by
  rw [strEndsWith] at h
  obtain ⟨t, ht⟩ := isPre_iff_append.mp h
  have hbase : (basename f).data = (t.takeWhile (fun c => c ≠ '/')).reverse ++
      ['.', 'n', 'u', 's', 'p', 'e', 'c'] := by
    have h1 : f.data.reverse = 'c' :: 'e' :: 'p' :: 's' :: 'u' :: 'n' :: '.' :: t := by
      rw [ht]
      rfl
    rw [show (basename f).data = ((f.data.reverse.dropWhile (fun c => c = '/')).takeWhile
        (fun c => c ≠ '/')).reverse from rfl]
    rw [h1]
    rw [show (('c' :: 'e' :: 'p' :: 's' :: 'u' :: 'n' :: '.' :: t).dropWhile
        (fun c => c = '/')) = 'c' :: 'e' :: 'p' :: 's' :: 'u' :: 'n' :: '.' :: t from by
      rw [List.dropWhile_cons]
      simp]
    rw [show (('c' :: 'e' :: 'p' :: 's' :: 'u' :: 'n' :: '.' :: t).takeWhile
        (fun c => c ≠ '/')) = 'c' :: 'e' :: 'p' :: 's' :: 'u' :: 'n' :: '.' ::
          (t.takeWhile (fun c => c ≠ '/')) from by
      simp [List.takeWhile_cons]]
    simp
  have hext : extname f = "" ∨ extname f = ".nuspec" := by
    rw [show extname f = (let b := (basename f).data;
        if b.all (fun c => c ≠ '.') then "" else if b = ['.', '.'] then "" else
        let after := b.reverse.takeWhile (fun c => c ≠ '.')
        if after.length + 1 = b.length then "" else ⟨'.' :: after.reverse⟩) from rfl]
    dsimp only
    rw [hbase]
    set u := t.takeWhile (fun c => c ≠ '/') with hu
    have hall : ¬((u.reverse ++ ['.', 'n', 'u', 's', 'p', 'e', 'c']).all
        (fun c => c ≠ '.') = true) := by
      intro hall
      have h2 := List.all_eq_true.mp hall '.' (by simp)
      simp at h2
    rw [if_neg hall]
    have hc2 : ¬(u.reverse ++ ['.', 'n', 'u', 's', 'p', 'e', 'c'] = ['.', '.']) := by
      intro h2
      have h3 := congrArg List.length h2
      simp at h3
    rw [if_neg hc2]
    have hrev : (u.reverse ++ ['.', 'n', 'u', 's', 'p', 'e', 'c']).reverse =
        'c' :: 'e' :: 'p' :: 's' :: 'u' :: 'n' :: '.' :: u := by
      simp
    rw [hrev]
    rw [show (('c' :: 'e' :: 'p' :: 's' :: 'u' :: 'n' :: '.' :: u).takeWhile
        (fun c => c ≠ '.')) = ['c', 'e', 'p', 's', 'u', 'n'] from by
      simp [List.takeWhile_cons]]
    by_cases hlen : (['c', 'e', 'p', 's', 'u', 'n'] : List Char).length + 1 =
        (u.reverse ++ ['.', 'n', 'u', 's', 'p', 'e', 'c']).length
    · rw [if_pos hlen]
      exact Or.inl rfl
    · rw [if_neg hlen]
      exact Or.inr rfl
  have hfalse : iconExtensions.contains (strLower (extname f)) = false := by
    rcases hext with he | he <;> rw [he] <;> decide
  simp only [isIconFile, hfalse, Bool.false_and]

theorem strLower_basename (f : String) : strLower (basename f) = basename (strLower f) := by
  apply String.ext
  rw [show (strLower (basename f)).data = ((f.data.reverse.dropWhile
      (fun c => decide (c = '/'))).takeWhile
      (fun c => decide (¬ c = '/'))).reverse.map Char.toLower from rfl]
  rw [show (basename (strLower f)).data = (((f.data.map Char.toLower).reverse.dropWhile
      (fun c => decide (c = '/'))).takeWhile (fun c => decide (¬ c = '/'))).reverse from rfl]
  rw [← List.map_reverse, List.dropWhile_map, List.takeWhile_map, List.map_reverse]
  rw [show ((fun c => decide (c = '/')) ∘ Char.toLower) =
      (fun c : Char => decide (c = '/')) from ?p1]
  rw [show ((fun c => decide (¬ c = '/')) ∘ Char.toLower) =
      (fun c : Char => decide (¬ c = '/')) from ?p2]
  case p1 =>
    funext c
    simp only [Function.comp]
    exact decide_eq_decide.mpr (toLower_eq_low (by decide))
  case p2 =>
    funext c
    simp only [Function.comp]
    refine decide_eq_decide.mpr ?_
    constructor
    · intro h2 hc
      exact h2 ((toLower_eq_low (by decide)).mpr hc)
    · intro h2 hc
      exact h2 ((toLower_eq_low (by decide)).mp hc)

theorem mcp_exclusive (f : String) (h : isMcpServerFile f = true) :
    strEndsWith f ".nuspec" = false ∧ isIconFile f = false ∧ isReadmeFile f = false ∧
    isLicenseFile f = false := by
  have hlow : strLower f = ".mcp/server.json" := by
    rw [isMcpServerFile] at h
    exact beq_iff_eq.mp h
  have hbn : strLower (basename f) = "server.json" := by
    rw [strLower_basename, hlow]
    decide
  refine ⟨?_, ?_, ?_, ?_⟩
  · refine Bool.eq_false_iff.mpr ?_
    intro hend
    rw [strEndsWith] at hend
    have h2 := isPre_map Char.toLower hend
    rw [show (".nuspec".data.reverse.map Char.toLower) = ".nuspec".data.reverse from by
      decide] at h2
    rw [List.map_reverse] at h2
    rw [show (f.data.map Char.toLower) = (strLower f).data from rfl] at h2
    rw [hlow] at h2
    revert h2
    decide
  · have hB : strContains (strLower f) "icon" = false := by
      rw [hlow]
      decide
    simp only [isIconFile, hB, Bool.and_false]
  · simp only [isReadmeFile, hbn]
    decide
  · simp only [isLicenseFile, hbn]
    decide

/-- C4 (amended): the five discriminating rules are not pairwise
exclusive (see the counterexamples); a single class per entry is
guaranteed only by the classifier's first-match precedence.  What does
hold for all filenames: the readme and license rules exclude each
other, the manifest suffix rule excludes the icon rule, and the MCP
rule excludes all four others; each of the spec's five examples matches
exactly its stated class. -/
theorem classification_exclusivity :
    (∀ f, ¬(isReadmeFile f = true ∧ isLicenseFile f = true)) ∧
    (∀ f, strEndsWith f ".nuspec" = true → isIconFile f = false) ∧
    (∀ f, isMcpServerFile f = true → strEndsWith f ".nuspec" = false ∧ isIconFile f = false ∧
       isReadmeFile f = false ∧ isLicenseFile f = false) ∧
    (classify "readme.md" = EntryClass.readme ∧ classify "foo/icon.png" = EntryClass.icon ∧
     classify ".mcp/server.json" = EntryClass.mcpServer ∧
     classify "LICENSE" = EntryClass.license ∧ classify "license.txt" = EntryClass.license) :=
  ⟨readme_license_exclusive, nuspec_not_icon, mcp_exclusive, by decide⟩

theorem classification_exclusivity_witness :
    ¬(isReadmeFile "sub/readme.md" = true ∧ isLicenseFile "sub/readme.md" = true) ∧
    isIconFile "tools/pkg.nuspec" = false ∧
    (strEndsWith ".mcp/server.json" ".nuspec" = false ∧
     isIconFile ".mcp/server.json" = false ∧ isReadmeFile ".mcp/server.json" = false ∧
     isLicenseFile ".mcp/server.json" = false) :=
  ⟨classification_exclusivity.1 "sub/readme.md",
   classification_exclusivity.2.1 "tools/pkg.nuspec" (by decide),
   classification_exclusivity.2.2.1 ".mcp/server.json" (by decide)⟩


end Nupkg
